import Mathlib

/-!
Verification of the TOON codec (`convertToToon`, `ToonDecoder`, `calculateTokenStats`).

Shallow embedding conventions:
* JS strings are `List Char` (abbreviated `LC`).
* JS numbers are modeled as exact rationals `ℚ`; IEEE-754 rounding, overflow to
  `Infinity` and `NaN` are outside the model.  All theorems below evaluate the
  codec only at integral numerics, where the rational model and doubles agree.
* JS objects are ordered association lists `List (LC × Value)`; JS arrays are
  `List Value`.  Property assignment keeps the position of an existing key and
  appends fresh keys, as in JS.
* The decoder's mutable containers (reached through references held by stack
  frames) are modeled by paths from the document root; a container that the
  source code leaves unreachable from the root (`addToCurrent` dropping the
  attachment) is an `orphan` location whose later mutations are invisible in
  the root, exactly as in the source.
-/

abbrev LC := List Char

/-- JS whitespace (`\s`, `trim`): the characters relevant to this codec.
(Exotic Unicode space code points behave like the ones listed.) -/
def isJsWs (c : Char) : Bool :=
  c = ' ' || c = '\t' || c = '\n' || c = '\r' ||
  c = '\x0b' || c = '\x0c' || c = ' ' || c = '﻿'

/-- `String.prototype.trimStart`. -/
def jsTrimStart (l : LC) : LC := l.dropWhile isJsWs

/-- `String.prototype.trimEnd`. -/
def jsTrimEnd (l : LC) : LC := (l.reverse.dropWhile isJsWs).reverse

/-- `String.prototype.trim`. -/
def jsTrim (l : LC) : LC := jsTrimEnd (jsTrimStart l)

/-- Regex `\w`: ASCII letters, digits and underscore. -/
def wordChar (c : Char) : Bool := c.isAlphanum || c = '_'

/-- Digit value of `'0'..'9'`. -/
def digitVal (c : Char) : Nat := c.toNat - 48

/-- Value of a hexadecimal digit, if any (case-insensitive, as in JS). -/
def hexDigitVal (c : Char) : Option Nat :=
  if c.isDigit then some (digitVal c)
  else if 'a' ≤ c && c ≤ 'f' then some (c.toNat - 87)
  else if 'A' ≤ c && c ≤ 'F' then some (c.toNat - 55)
  else none

/-- A digit of radix `b` (used for JS `0x`/`0o`/`0b` literals). -/
def isRadixDigit (b : Nat) (c : Char) : Bool :=
  match hexDigitVal c with
  | some v => v < b
  | none => false

/-- Fold a digit list into its value in radix `b`. -/
def radixVal (b : Nat) (ds : LC) : Nat :=
  ds.foldl (fun a c => b * a + (hexDigitVal c).getD 0) 0

/-- Decimal value of a digit string. -/
def decVal (ds : LC) : Nat := ds.foldl (fun a c => 10 * a + digitVal c) 0

/-- Decimal digits of `n`, with explicit fuel to keep the recursion structural
(hence kernel-reducible).  `natToChars` below supplies always-sufficient fuel. -/
def natToCharsGo : Nat → Nat → LC
  | 0, _ => []
  | fuel + 1, n =>
    if n < 10 then [Nat.digitChar n]
    else natToCharsGo fuel (n / 10) ++ [Nat.digitChar (n % 10)]

/-- Decimal digits of a natural number, as produced by JS `String(n)`. -/
def natToChars (n : Nat) : LC := natToCharsGo (n + 1) n

/-- JS `String(n)` for an integer. -/
def intToChars (n : Int) : LC :=
  if n < 0 then '-' :: natToChars n.natAbs else natToChars n.natAbs

/-- Exponent part of a JS decimal literal: `[eE] [+-]? digits`, applied to the
value parsed so far.  `none` models `NaN`. -/
def parseExpTail (r : LC) (base : ℚ) : Option ℚ :=
  let p : Int × LC :=
    match r with
    | '+' :: t => (1, t)
    | '-' :: t => (-1, t)
    | _ => (1, r)
  if p.2 ≠ [] ∧ p.2.all Char.isDigit then
    some (if p.1 = 1 then base * 10 ^ decVal p.2 else base / 10 ^ decVal p.2)
  else none

/-- Optional exponent following the mantissa of a JS decimal literal. -/
def parseExp (r : LC) (base : ℚ) : Option ℚ :=
  match r with
  | [] => some base
  | 'e' :: r2 => parseExpTail r2 base
  | 'E' :: r2 => parseExpTail r2 base
  | _ => none

/-- Unsigned JS decimal literal `digits [. digits] [exp]` or `. digits [exp]`.
`none` models `NaN`. -/
def parseDec (r : LC) : Option ℚ :=
  let ip := r.takeWhile Char.isDigit
  let r1 := r.drop ip.length
  match r1 with
  | '.' :: r2 =>
    let fp := r2.takeWhile Char.isDigit
    let r3 := r2.drop fp.length
    if ip = [] ∧ fp = [] then none
    else parseExp r3 ((decVal ip : ℚ) + (decVal fp : ℚ) / (10 : ℚ) ^ fp.length)
  | _ => if ip = [] then none else parseExp r1 (decVal ip)

/-- Non-decimal JS numeric literal body (`0x…`, `0o…`, `0b…`). -/
def parseRadix (b : Nat) (r : LC) : Option ℚ :=
  if r ≠ [] ∧ r.all (isRadixDigit b) then some (radixVal b r : ℚ) else none

/-- JS `Number(s)` on an already-trimmed string; `none` models `NaN`.
`Infinity` forms are accepted by the JS grammar (they are not `NaN`); their
value is not representable in `ℚ`, so the model returns the marker `some 0`
there — no theorem below evaluates a numeric at an `Infinity` literal. -/
def jsNumberOf (s : LC) : Option ℚ :=
  if s = [] then some 0
  else if s = "Infinity".toList ∨ s = "+Infinity".toList ∨ s = "-Infinity".toList then
    some 0
  else
    match s with
    | '0' :: 'x' :: r => parseRadix 16 r
    | '0' :: 'X' :: r => parseRadix 16 r
    | '0' :: 'o' :: r => parseRadix 8 r
    | '0' :: 'O' :: r => parseRadix 8 r
    | '0' :: 'b' :: r => parseRadix 2 r
    | '0' :: 'B' :: r => parseRadix 2 r
    | '-' :: r => (parseDec r).map Neg.neg
    | '+' :: r => parseDec r
    | _ => parseDec s

/-- The in-memory JSON-like value the codec operates on. -/
inductive Value where
  | null : Value
  | bool (b : Bool) : Value
  | num (q : ℚ) : Value
  | str (s : LC) : Value
  | arr (elems : List Value) : Value
  | obj (entries : List (LC × Value)) : Value

/-- JS `v === null`. -/
def isNullV : Value → Bool
  | .null => true
  | _ => false

/-- JS `typeof v === 'object'` (true for `null`, arrays and objects). -/
def typeofObject : Value → Bool
  | .null => true
  | .arr _ => true
  | .obj _ => true
  | _ => false

/-- Is `v` a plain (non-array, non-null) object? -/
def isObjV : Value → Bool
  | .obj _ => true
  | _ => false

/-- Is `v` an array? -/
def isArrV : Value → Bool
  | .arr _ => true
  | _ => false

/-- `Object.keys`, in insertion order (empty for non-objects). -/
def objKeys : Value → List LC
  | .obj es => es.map Prod.fst
  | _ => []

/-- First binding of `k` in an association list (JS property lookup). -/
def entsGet : List (LC × Value) → LC → Option Value
  | [], _ => none
  | (k0, v0) :: rest, k => if k0 = k then some v0 else entsGet rest k

/-- JS property assignment `o[k] = v`: replace in place if the key exists,
append otherwise. -/
def objSet : List (LC × Value) → LC → Value → List (LC × Value)
  | [], k, v => [(k, v)]
  | (k0, v0) :: rest, k, v =>
    if k0 = k then (k0, v) :: rest else (k0, v0) :: objSet rest k v

/-- `item[k]` as used by the encoder's tabular branch: a missing key yields JS
`undefined`, which `escapeVal` prints exactly like `null`, so the model reads
it as `Value.null`. -/
def objGetD (item : Value) (k : LC) : Value :=
  match item with
  | .obj es => (entsGet es k).getD Value.null
  | _ => Value.null

/-! ## Scalar printing (`String(v)` and `escapeVal`) -/

/-- JS `String(q)` for a number.  Faithful for integral values; non-integral
rationals get a model-only `num/den` rendering (JS double formatting is
outside the model — every theorem below prints only integral numerics). -/
def numToChars (q : ℚ) : LC :=
  if q.den = 1 then intToChars q.num
  else intToChars q.num ++ '/' :: natToChars q.den

mutual
/-- JS `String(v)`. -/
def jsStringOf : Value → LC
  | .null => "null".toList
  | .bool true => "true".toList
  | .bool false => "false".toList
  | .num q => numToChars q
  | .str s => s
  | .arr xs => joinParts xs
  | .obj _ => "[object Object]".toList
termination_by v => (sizeOf v, 0)
/-- `Array.prototype.join(',')` used by `String` on arrays. -/
def joinParts : List Value → LC
  | [] => []
  | [x] => joinElem x
  | x :: y :: xs => joinElem x ++ ',' :: joinParts (y :: xs)
termination_by xs => (sizeOf xs, 1)
/-- One array element inside `join`: `null`/`undefined` become empty. -/
def joinElem : Value → LC
  | .null => []
  | v => jsStringOf v
termination_by v => (sizeOf v, 2)
end

/-- The quoting condition of `escapeVal`: commas, newlines, colons, double
quotes anywhere, or `[`/`{` at the start. -/
def needsQuote (s : LC) : Bool :=
  s.contains ',' || s.contains '\n' || s.contains ':' || s.contains '"' ||
  s.head? = some '[' || s.head? = some '{'

/-- `str.replace(/"/g, '""')`. -/
def doubleQuotes : LC → LC
  | [] => []
  | c :: r => if c = '"' then '"' :: '"' :: doubleQuotes r else c :: doubleQuotes r

/-- `str.replace(/""/g, '"')` (leftmost, non-overlapping). -/
def collapseQuotes : LC → LC
  | [] => []
  | [c] => [c]
  | c :: c2 :: r =>
    if c = '"' then
      if c2 = '"' then '"' :: collapseQuotes r
      else c :: c2 :: collapseQuotes r
    else c :: collapseQuotes (c2 :: r)

/-- `escapeVal` from the source: `null`/`undefined` print as `null`, and a
string form is wrapped in doubled-quote escaping iff `needsQuote` holds. -/
def escapeVal (v : Value) : LC :=
  match v with
  | .null => "null".toList
  | _ =>
    let s := jsStringOf v
    if needsQuote s then '"' :: (doubleQuotes s ++ ['"']) else s

/-! ## Encoder -/

/-- `isUniformArray` from the source: non-empty, first element a non-array
object with at least one key, and every element a non-array object whose key
set has the same cardinality and contains every key of the first element. -/
def isUniformArray (xs : List Value) : Bool :=
  match xs with
  | [] => false
  | first :: _ =>
    if !isObjV first then false
    else
      let keys := objKeys first
      if keys = [] then false
      else xs.all fun item =>
        isObjV item && (objKeys item).length = keys.length &&
        keys.all (fun k => k ∈ objKeys item)

mutual
/-- The recursive `encode` helper inside `convertToToon` (`key = none` marks
the document root, mirroring the nullable key parameter). -/
def encode (curr : Value) (indent : Nat) (key : Option LC) : LC :=
  let space := List.replicate (2 * indent) ' '
  let pfx := match key with
    | some k => space ++ k ++ [':']
    | none => []
  match curr with
  | .null => pfx ++ " null".toList
  | .arr [] => pfx ++ " []".toList
  | .arr (x :: rest) =>
    let items := x :: rest
    if items.all (fun i => !typeofObject i) then
      let header := match key with
        | some k => space ++ k ++ '[' :: (natToChars items.length ++ "]:".toList)
        | none => space ++ '[' :: (natToChars items.length ++ "]:".toList)
      header ++ ' ' :: List.intercalate [','] (items.map escapeVal)
    else if isUniformArray items then
      let keys := objKeys x
      let header := match key with
        | some k =>
          space ++ k ++ '[' :: (natToChars items.length ++
            ']' :: '{' :: (List.intercalate [','] keys ++ "\x7d:".toList))
        | none =>
          space ++ "table[".toList ++ natToChars items.length ++
            ']' :: '{' :: (List.intercalate [','] keys ++ "\x7d:".toList)
      let rows := List.intercalate ['\n'] (items.map fun item =>
        space ++ "  ".toList ++
          List.intercalate [','] (keys.map fun k2 => escapeVal (objGetD item k2)))
      header ++ '\n' :: rows
    else
      let listItems := List.intercalate ['\n'] (encodeListItems items indent space)
      if key.isSome then pfx ++ '\n' :: listItems else listItems
  | .obj es =>
    if es.isEmpty then pfx ++ " \x7b\x7d".toList
    else
      let lines := List.intercalate ['\n'] (encodeObjEntries es indent key space)
      if key.isSome then pfx ++ '\n' :: lines else lines
  | _ => pfx ++ ' ' :: escapeVal curr
termination_by (sizeOf curr, 0)
/-- The generic-list branch: one `- ` line per element. -/
def encodeListItems : List Value → Nat → LC → List LC
  | [], _, _ => []
  | item :: rest, indent, space =>
    (if typeofObject item && !isNullV item then
      space ++ "  - ".toList ++ jsTrimStart (encode item (indent + 1) none)
    else
      space ++ "  - ".toList ++ escapeVal item) :: encodeListItems rest indent space
termination_by items indent space => (sizeOf items, 1)
/-- The object branch: scalar entries on one `k: v` line, container entries
recursing with the key as their header. -/
def encodeObjEntries : List (LC × Value) → Nat → Option LC → LC → List LC
  | [], _, _, _ => []
  | (k2, v) :: rest, indent, key, space =>
    (if typeofObject v && !isNullV v then
      encode v (indent + (if key.isSome then 1 else 0)) (some k2)
    else
      space ++ (if key.isSome then "  ".toList else []) ++ k2 ++ ": ".toList ++ escapeVal v)
    :: encodeObjEntries rest indent key space
termination_by es indent key space => (sizeOf es, 1)
end

/-- `convertToToon` from the source: encode from the root and trim. -/
def convertToToon (data : Value) : LC := jsTrim (encode data 0 none)

/-! ## Statistics -/

/-- `Math.round` (half toward `+∞`) of an exact rational. -/
def jsRound (q : ℚ) : ℤ := ⌊q + 1 / 2⌋

/-- Result record of `calculateTokenStats`.  `savingsPercent` is `none` when
the JS computation produces a non-finite double (`NaN` or `-Infinity`, both
arising only from division by `jsonChars = 0`). -/
structure TokenStats where
  jsonChars : Nat
  toonChars : Nat
  savingsPercent : Option ℤ
  estimatedTokensJson : Nat
  estimatedTokensToon : Nat
deriving DecidableEq

/-- `calculateTokenStats` from the source.  The source divides by `jsonChars`
with no zero guard; the model records the resulting non-finite
`savingsPercent` as `none`. -/
def calculateTokenStats (jsonStr toonStr : LC) : TokenStats :=
  let jsonChars := jsonStr.length
  let toonChars := toonStr.length
  { jsonChars := jsonChars
    toonChars := toonChars
    savingsPercent :=
      if jsonChars = 0 then none
      else some (jsRound ((((jsonChars : ℚ) - (toonChars : ℚ)) / (jsonChars : ℚ)) * 100))
    estimatedTokensJson := (jsonChars + 3) / 4
    estimatedTokensToon := (toonChars + 3) / 4 }

/-! ## Decoder: scalar parsing and the CSV-cell scanner -/

/-- `parseValue` from the source. -/
def parseValue (s : LC) : Value :=
  let val := jsTrim s
  if val = "null".toList then .null
  else if val = "true".toList then .bool true
  else if val = "false".toList then .bool false
  else if (jsNumberOf val).isSome ∧ val ≠ [] then .num ((jsNumberOf val).getD 0)
  else if val.head? = some '"' ∧ val.getLast? = some '"' then
    .str (collapseQuotes ((val.drop 1).dropLast))
  else .str val

/-- The character loop of `parseCSV`: `cur` is the current cell, `inq` the
"inside quoted field" flag. -/
def parseCSVGo : LC → LC → Bool → List Value
  | [], cur, _ => [parseValue cur]
  | '"' :: '"' :: r2, cur, true => parseCSVGo r2 (cur ++ ['"']) true
  | '"' :: rest, cur, true => parseCSVGo rest cur false
  | '"' :: rest, cur, false => parseCSVGo rest cur true
  | ',' :: rest, cur, false => parseValue cur :: parseCSVGo rest [] false
  | c :: rest, cur, inq => parseCSVGo rest (cur ++ [c]) inq

/-- `parseCSV` from the source. -/
def parseCSV (s : LC) : List Value := parseCSVGo s [] false

/-! ## Decoder: line classification

The three anchored regexes of `processLine` are deterministic (each greedy
piece is delimited by a character its class excludes), so they are modeled by
`takeWhile`-based scanners returning the capture the code uses. -/

/-- `/^(?:(\w+)\[\d+\]|table\[\d+\])\{(.+)\}:$/` — returns the raw headers
capture.  The `table[…]` alternative is subsumed by `(\w+)[…]`. -/
def tableStartMatch (content : LC) : Option LC :=
  let w := content.takeWhile wordChar
  if w = [] then none
  else
    match content.drop w.length with
    | '[' :: r2 =>
      let d := r2.takeWhile Char.isDigit
      if d = [] then none
      else
        match r2.drop d.length with
        | ']' :: '{' :: r3 =>
          if 3 ≤ r3.length ∧ r3.drop (r3.length - 2) = "\x7d:".toList then
            some (r3.take (r3.length - 2))
          else none
        | _ => none
    | _ => none

/-- The `\[\d+\]:` tail shared by both alternatives of the
primitive-array-header regex: digits, `]`, `:`, then the cells capture (with
leading whitespace consumed by `\s*`). -/
def bracketTail (r2 : LC) : Option LC :=
  let d := r2.takeWhile Char.isDigit
  if d = [] then none
  else
    match r2.drop d.length with
    | ']' :: ':' :: rest => some (rest.dropWhile isJsWs)
    | _ => none

/-- `/^(?:(\w+)\[\d+\]|\[\d+\]):\s*(.*)$/` — returns the cells capture.
(When the text starts with `[`, the `(\w+)` alternative cannot match, so the
two regex alternatives are decided by the first character.) -/
def arrayStartMatch (content : LC) : Option LC :=
  if content.head? = some '[' then bracketTail (content.drop 1)
  else
    let w := content.takeWhile wordChar
    if w = [] then none
    else
      match content.drop w.length with
      | '[' :: r2 => bracketTail r2
      | _ => none

/-- `/^(\w+):(?:\s*(.*))?$/` — returns the key and the value capture (empty
when nothing follows the colon, which JS treats the same as a missing
capture). -/
def keyValMatch (content : LC) : Option (LC × LC) :=
  let w := content.takeWhile wordChar
  if w = [] then none
  else
    match content.drop w.length with
    | ':' :: rest => some (w, rest.dropWhile isJsWs)
    | _ => none

/-! ## Decoder: state -/

/-- Where a decoder container lives: at a key path under the document root, or
detached from it (`addToCurrent` found no parent to attach to — later writes
through such a frame never become visible in the root, as in the source). -/
inductive Loc where
  | rooted (path : List LC) : Loc
  | orphan : Loc
deriving DecidableEq

/-- The `type` field of a stack frame (`'object' | 'array' | 'table'`; the
source never pushes an `'array'` frame but its type admits one). -/
inductive FrameKind where
  | kObject : FrameKind
  | kArray : FrameKind
  | kTable : FrameKind
deriving DecidableEq

/-- One open container of the decoder. -/
structure Frame where
  loc : Loc
  kind : FrameKind
  indent : Nat
  key : Option LC
  headers : List LC
deriving DecidableEq

/-- Decoder state: `root = none` is the initial JS `null` root.  The stack's
head is its top. -/
structure DecState where
  root : Option Value
  stack : List Frame

/-- Replace the first binding of key `p` in `es` using `f` (no-op if absent). -/
def entsModify (es : List (LC × Value)) (p : LC) (f : Value → Value) :
    List (LC × Value) :=
  match es with
  | [] => []
  | (k0, v0) :: rest =>
    if k0 = p then (k0, f v0) :: rest else (k0, v0) :: entsModify rest p f

/-- Navigate a key path inside `v` and set key `k` of the object found there
(no-op wherever the path or the final container does not fit, matching a write
through a stale reference that the root can no longer see). -/
def updateAtObj (v : Value) : List LC → LC → Value → Value
  | [], k, x =>
    match v with
    | .obj es => .obj (objSet es k x)
    | _ => v
  | p :: ps, k, x =>
    match v with
    | .obj es => .obj (entsModify es p (fun v0 => updateAtObj v0 ps k x))
    | _ => v

/-- Navigate a key path inside `v` and push `x` onto the array found there. -/
def pushAt (v : Value) : List LC → Value → Value
  | [], x =>
    match v with
    | .arr xs => .arr (xs ++ [x])
    | _ => v
  | p :: ps, x =>
    match v with
    | .obj es => .obj (entsModify es p (fun v0 => pushAt v0 ps x))
    | _ => v

/-- Write `key ↦ val` through a container location. -/
def writeLoc (st : DecState) (loc : Loc) (key : LC) (val : Value) : DecState :=
  match loc with
  | .orphan => st
  | .rooted p => { st with root := st.root.map fun r => updateAtObj r p key val }

/-- Append `x` to the array at a container location. -/
def pushLoc (st : DecState) (loc : Loc) (x : Value) : DecState :=
  match loc with
  | .orphan => st
  | .rooted p => { st with root := st.root.map fun r => pushAt r p x }

/-- `addToCurrent` from the source: with an empty stack, attach under the root
when it is a non-array object (JS also silently ignores the write when the
root is an array or a primitive); otherwise write into the top frame when it
is an object frame, and drop the value when it is not. -/
def addToCurrent (st : DecState) (key : LC) (val : Value) : DecState :=
  match st.stack with
  | [] =>
    match st.root with
    | none => st
    | some r =>
      if isArrV r then st
      else
        match r with
        | .obj es => { st with root := some (.obj (objSet es key val)) }
        | _ => st
  | top :: _ => if top.kind = .kObject then writeLoc st top.loc key val else st

/-- The location a value attached by `addToCurrent st key` would occupy (the
container reference the source stores into the new frame). -/
def childLoc (st : DecState) (key : LC) : Loc :=
  match st.stack with
  | [] =>
    match st.root with
    | some (.obj _) => .rooted [key]
    | _ => .orphan
  | top :: _ =>
    if top.kind = .kObject then
      match top.loc with
      | .rooted p => .rooted (p ++ [key])
      | .orphan => .orphan
    else .orphan

/-- The indentation-driven popping at the start of `processLine`: pop while
the top frame's `indent` is ≥ the line's indent. -/
def popFrames (stack : List Frame) (indent : Nat) : List Frame :=
  match stack with
  | [] => []
  | top :: rest => if indent ≤ top.indent then popFrames rest indent else top :: rest

/-- The table-row object: `headers.forEach((h, idx) => row[h] = idx < values.length ? values[idx] : null)`. -/
def buildRow (headers : List LC) (values : List Value) : Value :=
  .obj (headers.enum.foldl (fun acc hi => objSet acc hi.2 (values.getD hi.1 .null)) [])

/-- `processLine` from the source. -/
def processLine (st : DecState) (line : LC) : DecState :=
  let indent := (line.takeWhile isJsWs).length
  let content := jsTrim line
  let st1 : DecState := { st with stack := popFrames st.stack indent }
  match tableStartMatch content with
  | some h =>
    let headers := List.splitOn ',' h
    if "table".toList.isPrefixOf content then
      { root := some (.arr [])
        stack := ⟨.rooted [], .kTable, indent, none, headers⟩ :: st1.stack }
    else
      let key := content.takeWhile (· ≠ '[')
      let loc := childLoc st1 key
      let st2 := addToCurrent st1 key (.arr [])
      { st2 with stack := ⟨loc, .kTable, indent, none, headers⟩ :: st2.stack }
  | none =>
  match arrayStartMatch content with
  | some cellsStr =>
    let values := if cellsStr = [] then [] else parseCSV cellsStr
    if content.head? = some '[' then { st1 with root := some (.arr values) }
    else addToCurrent st1 (content.takeWhile (· ≠ '[')) (.arr values)
  | none =>
  match keyValMatch content with
  | some (key, valStr) =>
    if content.head? = some '-' then afterKeyVal st1 content
    else if valStr = [] then
      let st2 : DecState :=
        if st1.stack.isEmpty && st1.root.isNone then { st1 with root := some (.obj []) }
        else st1
      let loc := childLoc st2 key
      let st3 := addToCurrent st2 key (.obj [])
      { st3 with stack := ⟨loc, .kObject, indent, some key, []⟩ :: st3.stack }
    else
      let val := parseValue valStr
      match st1.stack with
      | [] =>
        let r := st1.root.getD (.obj [])
        { st1 with root := some (match r with
            | .obj es => .obj (objSet es key val)
            | _ => r) }
      | _ :: _ => addToCurrent st1 key val
  | none => afterKeyVal st1 content
where
  /-- Branches 4 (table row) and 5 (list item, a no-op) of `processLine`. -/
  afterKeyVal (st1 : DecState) (content : LC) : DecState :=
    match st1.stack with
    | top :: _ =>
      if top.kind = .kTable then pushLoc st1 top.loc (buildRow top.headers (parseCSV content))
      else st1
    | [] => st1

/-- `ToonDecoder.decode` (as wrapped by `decodeToon`): process each non-blank
line and return the accumulated root (JS `null` when nothing set it). -/
def decodeToon (s : LC) : Value :=
  (((List.splitOn '\n' s).foldl
      (fun st l => if jsTrim l = [] then st else processLine st l)
      ⟨none, []⟩).root).getD .null


/-! ## Value classes and specification-side definitions used by the theorems -/

/-- The three keyword literals of `parseValue`. -/
def keywordStrs : List LC := ["null".toList, "true".toList, "false".toList]

/-- Strings that `parseValue` returns unchanged (`parseValue s = str s`):
trim-invariant, not a keyword, not numeric (the empty string is protected by
the `val !== ''` guard), and not wrapped in double quotes. -/
def plainStrB (s : LC) : Bool :=
  (jsTrim s == s) && !(keywordStrs.contains s) &&
  (s.isEmpty || (jsNumberOf s).isNone) &&
  !(s.head? == some '"' && s.getLast? == some '"')

/-- Strings that survive a full encode/decode round trip: additionally
non-empty (an empty inline value turns a `k:` line into an object start) and
newline-free (the decoder is line-oriented). -/
def goodStrB (s : LC) : Bool := plainStrB s && !s.isEmpty && !s.contains '\n'

/-- Scalars covered by the round-trip theorems: null, booleans, integral
numbers in the double-exact range, and good strings. -/
def goodScalarB : Value → Bool
  | .null => true
  | .bool _ => true
  | .num q => q.den == 1 && q.num.natAbs ≤ 9007199254740992
  | .str s => goodStrB s
  | _ => false

/-- A `\w+` key. -/
def goodKeyB (k : LC) : Bool := !k.isEmpty && k.all wordChar

/-- A key acceptable in a root-table header: non-empty, comma-free (the
decoder splits headers on commas) and newline-free. -/
def goodTableKeyB (k : LC) : Bool := !k.isEmpty && !k.contains ',' && !k.contains '\n'

/-- The entry list of an object value. -/
def objEnts : Value → List (LC × Value)
  | .obj es => es
  | _ => []

/-- A flat object eligible for the proved root round trip: non-empty, `\w`
keys, distinct keys, good scalar values. -/
def GoodFlatObj : Value → Prop
  | .obj es =>
    es.isEmpty = false ∧ (∀ e ∈ es, goodKeyB e.1 = true ∧ goodScalarB e.2 = true) ∧
      (es.map Prod.fst).Nodup
  | _ => False

/-- A uniform table eligible for the proved root round trip: a non-empty array
of objects sharing one key list (same order), with distinct good table keys
and good scalar values. -/
def GoodTable : Value → Prop
  | .arr [] => False
  | .arr (x :: rest) =>
    objKeys x ≠ [] ∧ (objKeys x).Nodup ∧ (∀ k ∈ objKeys x, goodTableKeyB k = true) ∧
      ∀ item ∈ x :: rest, isObjV item = true ∧ objKeys item = objKeys x ∧
        ∀ e ∈ objEnts item, goodScalarB e.2 = true
  | _ => False

/-- Root values covered by the proved round trip. -/
def GoodRoot (v : Value) : Prop := GoodFlatObj v ∨ GoodTable v

instance : DecidablePred GoodFlatObj := fun v => by
  cases v <;> simp only [GoodFlatObj] <;> infer_instance

instance : DecidablePred GoodTable := fun v => by
  cases v with
  | arr xs => cases xs <;> simp only [GoodTable] <;> infer_instance
  | _ => simp only [GoodTable] <;> infer_instance

instance : DecidablePred GoodRoot := fun v => by
  unfold GoodRoot; infer_instance

/-- The cell-escaping condition exactly as the specification words it: the raw
text contains a comma, a newline, a colon, or a double quote, or starts with
`[` or `{`. -/
def specNeedsQuote (s : LC) : Bool :=
  s.contains ',' || s.contains '\n' || s.contains ':' || s.contains '"' ||
  s.head? = some '[' || s.head? = some '\x7b'

/-- The table row as the specification describes it: zip parsed cells against
the headers in order; cells beyond the available headers are dropped, missing
trailing cells become `Null`. -/
def specZipRow (headers : List LC) (values : List Value) : Value :=
  .obj (headers.enum.map fun hi => (hi.2, values.getD hi.1 .null))

/-! ## Helper lemmas: trimming -/

theorem jsTrimEnd_eq_rdrop (l : LC) : jsTrimEnd l = l.rdropWhile isJsWs := rfl

theorem jsTrimStart_eq_drop (l : LC) : jsTrimStart l = l.dropWhile isJsWs := rfl

theorem dropWhile_rdropWhile_dropWhile (p : Char → Bool) (l : LC) :
    List.dropWhile p (List.rdropWhile p (List.dropWhile p l)) =
      List.rdropWhile p (List.dropWhile p l) := by
  rw [List.dropWhile_eq_self_iff]
  intro hl
  obtain ⟨t, ht⟩ := List.rdropWhile_prefix p (List.dropWhile p l)
  have hry : (List.rdropWhile p (List.dropWhile p l)) ≠ [] := by
    intro h; rw [h] at hl; simp at hl
  obtain ⟨c, cs, hcc⟩ := List.exists_cons_of_ne_nil hry
  have hdl : List.dropWhile p l = c :: (cs ++ t) := by
    rw [← ht, hcc]; rfl
  have hne : List.dropWhile p l ≠ [] := by rw [hdl]; exact List.cons_ne_nil _ _
  have h1 := List.head_dropWhile_not p l hne
  have hc : p c = false := by
    have : (List.dropWhile p l).head hne = c := by
      simp [hdl]
    rwa [this] at h1
  simp [hcc, hc]

theorem jsTrim_idem (l : LC) : jsTrim (jsTrim l) = jsTrim l := by
  show jsTrimEnd (jsTrimStart (jsTrimEnd (jsTrimStart l))) = _
  rw [jsTrimEnd_eq_rdrop, jsTrimStart_eq_drop, jsTrimEnd_eq_rdrop, jsTrimStart_eq_drop,
    dropWhile_rdropWhile_dropWhile, List.rdropWhile_idempotent]
  rfl

theorem jsTrim_eq_self {l : LC} (hh : ∀ c, l.head? = some c → isJsWs c = false)
    (hl : ∀ c, l.getLast? = some c → isJsWs c = false) : jsTrim l = l := by
  have h1 : jsTrimStart l = l := by
    rw [jsTrimStart_eq_drop, List.dropWhile_eq_self_iff]
    intro hpos
    have hne : l ≠ [] := List.length_pos.mp hpos
    have := hh (l.head hne) (List.head?_eq_head hne)
    rw [List.head_eq_getElem_zero hne] at this
    simp only [List.get_eq_getElem]
    simp [this]
  have h2 : jsTrimEnd l = l := by
    rw [jsTrimEnd_eq_rdrop, List.rdropWhile_eq_self_iff]
    intro hne
    have := hl (l.getLast hne) (List.getLast?_eq_getLast _ hne)
    simp [this]
  show jsTrimEnd (jsTrimStart l) = l
  rw [h1, h2]

/-! ## Helper lemmas: quote escaping -/

theorem collapse_double (s : LC) : collapseQuotes (doubleQuotes s) = s := by
  induction s with
  | nil => rfl
  | cons c r ih =>
    by_cases h : c = '"'
    · subst h
      simp only [doubleQuotes, if_pos rfl]
      simpa [collapseQuotes] using ih
    · simp only [doubleQuotes, if_neg h]
      cases hr : doubleQuotes r with
      | nil =>
        have : r = [] := by
          cases r with
          | nil => rfl
          | cons a b => by_cases hb : a = '"' <;> simp [doubleQuotes, hb] at hr
        simp [collapseQuotes, this, hr]
      | cons d ds =>
        have hstep : collapseQuotes (c :: d :: ds) = c :: collapseQuotes (d :: ds) := by
          simp [collapseQuotes, h]
        rw [hstep, ← hr, ih]

theorem doubleQuotes_sans (s : LC) (h : ¬s.contains '"') : doubleQuotes s = s := by
  induction s with
  | nil => rfl
  | cons c r ih =>
    simp only [List.contains_cons, Bool.or_eq_true, not_or] at h
    have hc : c ≠ '"' := by
      intro hc; exact h.1 (by simp [hc])
    simp [doubleQuotes, hc, ih (by simpa using h.2)]

/-! ## Helper lemmas: the CSV scanner -/

theorem csvGo_nil (cur : LC) (inq : Bool) : parseCSVGo [] cur inq = [parseValue cur] := rfl

theorem csvGo_qq (r cur : LC) :
    parseCSVGo ('"' :: '"' :: r) cur true = parseCSVGo r (cur ++ ['"']) true := rfl

theorem csvGo_close (r cur : LC) (h : r.head? ≠ some '"') :
    parseCSVGo ('"' :: r) cur true = parseCSVGo r cur false := by
  cases r with
  | nil => rfl
  | cons c t =>
    have hc : c ≠ '"' := by intro hc; exact h (by simp [hc])
    simp [parseCSVGo, hc]

theorem csvGo_open (r cur : LC) : parseCSVGo ('"' :: r) cur false = parseCSVGo r cur true := by
  cases r with
  | nil => rfl
  | cons c t => by_cases h : c = '"' <;> simp [parseCSVGo, h]

theorem csvGo_comma (r cur : LC) :
    parseCSVGo (',' :: r) cur false = parseValue cur :: parseCSVGo r [] false := rfl

theorem csvGo_other (r cur : LC) (c : Char) (inq : Bool) (h1 : c ≠ '"') (h2 : c ≠ ',') :
    parseCSVGo (c :: r) cur inq = parseCSVGo r (cur ++ [c]) inq := by
  cases inq <;> simp [parseCSVGo, h1, h2]

theorem csvGo_inq_cons (r cur : LC) (c : Char) (h : c ≠ '"') :
    parseCSVGo (c :: r) cur true = parseCSVGo r (cur ++ [c]) true := by
  by_cases h2 : c = ','
  · subst h2; simp [parseCSVGo]
  · exact csvGo_other r cur c true h h2

/-- A comma- and quote-free cell passes through the scanner into the current
cell unchanged. -/
theorem csvGo_raw (c : LC) (hq : ¬c.contains '"') (hc : ¬c.contains ',') (s cur : LC) :
    parseCSVGo (c ++ s) cur false = parseCSVGo s (cur ++ c) false := by
  induction c generalizing cur with
  | nil => simp
  | cons a t ih =>
    simp only [List.contains_cons, Bool.or_eq_true, not_or] at hq hc
    have ha1 : a ≠ '"' := by intro h; exact hq.1 (by simp [h])
    have ha2 : a ≠ ',' := by intro h; exact hc.1 (by simp [h])
    rw [List.cons_append, csvGo_other _ _ _ _ ha1 ha2,
      ih (by simpa using hq.2) (by simpa using hc.2)]
    simp

/-- Inside a quoted field, the quote-doubled content is copied verbatim until
the closing quote. -/
theorem csvGo_quoted (t s cur : LC) :
    parseCSVGo (doubleQuotes t ++ '"' :: s) cur true = parseCSVGo ('"' :: s) (cur ++ t) true := by
  induction t generalizing cur with
  | nil => simp [doubleQuotes]
  | cons a t2 ih =>
    by_cases h : a = '"'
    · subst h
      have : doubleQuotes ('"' :: t2) ++ '"' :: s = '"' :: '"' :: (doubleQuotes t2 ++ '"' :: s) := by
        simp [doubleQuotes]
      rw [this, csvGo_qq, ih]
      simp
    · have : doubleQuotes (a :: t2) ++ '"' :: s = a :: (doubleQuotes t2 ++ '"' :: s) := by
        simp [doubleQuotes, h]
      rw [this, csvGo_inq_cons _ _ _ h, ih]
      simp

/-! ## Helper lemmas: character classes -/

theorem ws_not_digit {c : Char} (h : isJsWs c = true) : c.isDigit = false := by
  simp only [isJsWs, Bool.or_eq_true, decide_eq_true_eq] at h
  rcases h with (((((((h | h) | h) | h) | h) | h) | h) | h) <;> subst h <;> decide

theorem ws_not_word {c : Char} (h : isJsWs c = true) : wordChar c = false := by
  simp only [isJsWs, Bool.or_eq_true, decide_eq_true_eq] at h
  rcases h with (((((((h | h) | h) | h) | h) | h) | h) | h) <;> subst h <;> decide

theorem digit_not_ws {c : Char} (h : c.isDigit = true) : isJsWs c = false := by
  cases hw : isJsWs c
  · rfl
  · rw [ws_not_digit hw] at h; exact absurd h (by simp)

theorem word_not_ws {c : Char} (h : wordChar c = true) : isJsWs c = false := by
  cases hw : isJsWs c
  · rfl
  · rw [ws_not_word hw] at h; exact absurd h (by simp)

/-! ## Helper lemmas: decimal printing and parsing -/

theorem decVal_append_digit (l : LC) (c : Char) :
    decVal (l ++ [c]) = 10 * decVal l + digitVal c := by
  simp [decVal, List.foldl_append]

theorem natToCharsGo_spec :
    ∀ (f n : Nat), n < 10 ^ f → 1 ≤ f →
      (natToCharsGo f n).all Char.isDigit = true ∧ natToCharsGo f n ≠ [] ∧
        decVal (natToCharsGo f n) = n := by
  intro f
  induction f with
  | zero => intro n _ h1; omega
  | succ f ih =>
    intro n hn _
    by_cases h10 : n < 10
    · refine ⟨?_, by simp [natToCharsGo, h10], ?_⟩
      · simp only [natToCharsGo, if_pos h10, List.all_cons, List.all_nil, Bool.and_true]
        interval_cases n <;> decide
      · simp only [natToCharsGo, if_pos h10, decVal, List.foldl]
        interval_cases n <;> decide
    · have hf : 1 ≤ f := by
        by_contra hf
        have : f = 0 := by omega
        subst this
        simp at hn; omega
      have hdiv : n / 10 < 10 ^ f := by
        have : n < 10 * 10 ^ f := by
          calc n < 10 ^ (f + 1) := hn
          _ = 10 * 10 ^ f := by ring
        omega
      obtain ⟨ha, hb, hc⟩ := ih (n / 10) hdiv hf
      simp only [natToCharsGo, if_neg h10]
      refine ⟨?_, by simp, ?_⟩
      · rw [List.all_append, ha]
        simp only [List.all_cons, List.all_nil, Bool.and_true, Bool.true_and]
        have : n % 10 < 10 := Nat.mod_lt _ (by omega)
        interval_cases h : n % 10 <;> simp_all <;> decide
      · rw [decVal_append_digit, hc]
        have hm : n % 10 < 10 := Nat.mod_lt _ (by omega)
        have hd : digitVal (Nat.digitChar (n % 10)) = n % 10 := by
          interval_cases h : n % 10 <;> decide
        rw [hd]
        omega

theorem natToChars_spec (n : Nat) :
    (natToChars n).all Char.isDigit = true ∧ natToChars n ≠ [] ∧
      decVal (natToChars n) = n := by
  refine natToCharsGo_spec (n + 1) n ?_ (by omega)
  calc n < 2 ^ n * 1 := by simpa using Nat.lt_two_pow n
  _ ≤ 10 ^ n * 10 := by
    exact Nat.mul_le_mul (Nat.pow_le_pow_left (by omega) n) (by omega)
  _ = 10 ^ (n + 1) := by ring

theorem parseDec_digits (s : LC) (h : s.all Char.isDigit = true) (hne : s ≠ []) :
    parseDec s = some ((decVal s : ℚ)) := by
  have htw : s.takeWhile Char.isDigit = s :=
    List.takeWhile_eq_self_iff.mpr (by simpa [List.all_eq_true] using h)
  simp only [parseDec, htw, List.drop_length, if_neg hne, parseExp]

theorem jsNumberOf_digits (s : LC) (h : s.all Char.isDigit = true) (hne : s ≠ []) :
    jsNumberOf s = some ((decVal s : ℚ)) := by
  rw [jsNumberOf]
  rw [if_neg hne, if_neg ?hinf]
  case hinf =>
    push_neg
    refine ⟨?_, ?_, ?_⟩ <;> (intro he; rw [he] at h; exact absurd h (by decide))
  case _ => exact parseDec_digits s h hne
  all_goals (intro r he; rw [he] at h; simp at h)

theorem jsNumberOf_nat (m : Nat) : jsNumberOf (natToChars m) = some ((m : ℚ)) := by
  obtain ⟨ha, hb, hc⟩ := natToChars_spec m
  rw [jsNumberOf_digits _ ha hb, hc]

theorem jsNumberOf_neg_nat (m : Nat) :
    jsNumberOf ('-' :: natToChars m) = some (-(m : ℚ)) := by
  obtain ⟨ha, hb, hc⟩ := natToChars_spec m
  rw [jsNumberOf]
  rw [if_neg (by simp), if_neg ?hinf]
  case hinf =>
    push_neg
    refine ⟨by simp, by simp, ?_⟩
    intro he
    rw [show ("-Infinity".toList : LC) = '-' :: "Infinity".toList from rfl,
      List.cons.injEq] at he
    rw [he.2] at ha
    exact absurd ha (by decide)
  rw [parseDec_digits _ ha hb]
  simp [hc]

theorem jsNumberOf_int (n : Int) : jsNumberOf (intToChars n) = some ((n : ℚ)) := by
  by_cases h : n < 0
  · rw [intToChars, if_pos h, jsNumberOf_neg_nat]
    congr 1
    rw [Int.cast_natAbs, abs_of_nonpos (by exact_mod_cast le_of_lt h)]
    push_cast
    ring
  · rw [intToChars, if_neg h, jsNumberOf_nat]
    congr 1
    rw [Int.cast_natAbs, abs_of_nonneg (by exact_mod_cast not_lt.mp h)]

theorem jsNumberOf_quote_head (t : LC) : jsNumberOf ('"' :: t) = none := by
  rw [jsNumberOf]
  case _ =>
    rw [if_neg (by simp), if_neg (by push_neg; exact ⟨by simp, by simp, by simp⟩)]
    simp only [parseDec, List.takeWhile_cons_of_neg (by decide : ¬('"'.isDigit = true))]
    simp
  all_goals (intro r he; rw [List.cons.injEq] at he; simp at he)

/-! ## Helper lemmas: `parseValue` -/

theorem ne_of_head? {l l' : LC} (h : l.head? ≠ l'.head?) : l ≠ l' :=
  fun he => h (he ▸ rfl)

theorem jsTrim_eq_self_of_mem {s : LC} (h : ∀ c ∈ s, isJsWs c = false) : jsTrim s = s :=
  jsTrim_eq_self
    (fun c hc => h c (List.mem_of_mem_head? (by simp [hc])))
    (fun c hc => h c (List.mem_of_mem_getLast? (by simp [hc])))

theorem intToChars_chars (n : Int) :
    ∀ c ∈ intToChars n, c = '-' ∨ c.isDigit = true := by
  intro c hc
  obtain ⟨ha, _, _⟩ := natToChars_spec n.natAbs
  rw [intToChars] at hc
  by_cases h : n < 0
  · rw [if_pos h] at hc
    rcases List.mem_cons.mp hc with h1 | h1
    · exact Or.inl h1
    · exact Or.inr (by simpa using List.all_eq_true.mp ha c h1)
  · rw [if_neg h] at hc
    exact Or.inr (by simpa using List.all_eq_true.mp ha c hc)

theorem intToChars_head (n : Int) :
    ∀ c, (intToChars n).head? = some c → c = '-' ∨ c.isDigit = true :=
  fun c hc => intToChars_chars n c (List.mem_of_mem_head? (by simp [hc]))

theorem intToChars_ne_nil (n : Int) : intToChars n ≠ [] := by
  obtain ⟨_, hb, _⟩ := natToChars_spec n.natAbs
  rw [intToChars]
  by_cases h : n < 0 <;> simp [h, hb]

theorem parseValue_int (n : Int) : parseValue (intToChars n) = .num ((n : ℚ)) := by
  have htrim : jsTrim (intToChars n) = intToChars n := by
    refine jsTrim_eq_self_of_mem fun c hc => ?_
    rcases intToChars_chars n c hc with h | h
    · subst h; decide
    · exact digit_not_ws h
  have hhead : ∀ t : LC, t.head? = some 'n' ∨ t.head? = some 't' ∨ t.head? = some 'f' →
      intToChars n ≠ t := by
    intro t ht
    refine ne_of_head? ?_
    intro he
    obtain ⟨c, hc⟩ : ∃ c, (intToChars n).head? = some c := by
      cases hh : (intToChars n).head? with
      | none => exact absurd (List.head?_eq_none_iff.mp hh) (intToChars_ne_nil n)
      | some c => exact ⟨c, rfl⟩
    rcases intToChars_head n c hc with h1 | h1 <;>
      (rcases ht with h2 | h2 | h2 <;> (rw [he, h2, Option.some.injEq] at hc; subst hc)) <;>
      simp_all <;> exact absurd h1 (by decide)
  rw [parseValue]
  simp only [htrim]
  rw [if_neg (hhead _ (by left; rfl)), if_neg (hhead _ (by right; left; rfl)),
    if_neg (hhead _ (by right; right; rfl)),
    if_pos ⟨by rw [jsNumberOf_int]; simp, intToChars_ne_nil n⟩, jsNumberOf_int]
  rfl

theorem parseValue_quoted (s : LC) :
    parseValue ('"' :: (doubleQuotes s ++ ['"'])) = .str s := by
  have hlast : ('"' :: (doubleQuotes s ++ ['"'])).getLast? = some '"' := by
    rw [show ('"' :: (doubleQuotes s ++ ['"'])) = ('"' :: doubleQuotes s) ++ ['"'] by simp,
      List.getLast?_concat]
  have htrim : jsTrim ('"' :: (doubleQuotes s ++ ['"'])) = '"' :: (doubleQuotes s ++ ['"']) := by
    refine jsTrim_eq_self (fun c hc => ?_) (fun c hc => ?_)
    · simp only [List.head?_cons, Option.some.injEq] at hc; subst hc; decide
    · rw [hlast, Option.some.injEq] at hc; subst hc; decide
  rw [parseValue]
  simp only [htrim]
  rw [if_neg (by simp), if_neg (by simp), if_neg (by simp),
    if_neg (by rw [jsNumberOf_quote_head]; simp),
    if_pos ⟨by simp, hlast⟩]
  simp [List.dropLast_concat, collapse_double]

theorem parseValue_plain (s : LC) (h : plainStrB s = true) : parseValue s = .str s := by
  simp only [plainStrB, Bool.and_eq_true, beq_iff_eq, Bool.not_eq_true', Bool.or_eq_true,
    List.isEmpty_iff, Option.isNone_iff_eq_none] at h
  obtain ⟨⟨⟨htrim, hkw⟩, hnum⟩, hqt⟩ := h
  have hk1 : s ≠ "null".toList := by
    intro he; rw [he] at hkw; exact absurd hkw (by decide)
  have hk2 : s ≠ "true".toList := by
    intro he; rw [he] at hkw; exact absurd hkw (by decide)
  have hk3 : s ≠ "false".toList := by
    intro he; rw [he] at hkw; exact absurd hkw (by decide)
  rw [parseValue]
  simp only [htrim]
  rw [if_neg hk1, if_neg hk2, if_neg hk3, if_neg ?hnum, if_neg ?hq]
  case hnum =>
    rintro ⟨hsome, hne⟩
    rcases hnum with h | h
    · exact hne h
    · rw [h] at hsome; exact absurd hsome (by simp)
  case hq =>
    rintro ⟨h1, h2⟩
    rw [h1, h2] at hqt
    simp at hqt

theorem num_eq_of_den_one {q : ℚ} (h : q.den = 1) : ((q.num : ℚ)) = q := by
  have := Rat.num_div_den q
  rw [h] at this
  simpa using this

theorem parseValue_scalar (v : Value) (h : goodScalarB v = true) :
    parseValue (jsStringOf v) = v := by
  cases v with
  | null => rw [jsStringOf]; exact rfl
  | bool b => cases b <;> (rw [jsStringOf]; exact rfl)
  | num q =>
    simp only [goodScalarB, Bool.and_eq_true, beq_iff_eq, decide_eq_true_eq] at h
    rw [jsStringOf]
    rw [numToChars, if_pos h.1, parseValue_int, num_eq_of_den_one h.1]
  | str s =>
    rw [jsStringOf]
    refine parseValue_plain s ?_
    simp only [goodScalarB, goodStrB, Bool.and_eq_true] at h
    exact h.1.1
  | arr xs => simp [goodScalarB] at h
  | obj es => simp [goodScalarB] at h

/-! ## Helper lemmas: `escapeVal` -/

theorem needsQuote_elim {s : LC} (h : needsQuote s = false) :
    s.contains ',' = false ∧ s.contains '\n' = false ∧ s.contains ':' = false ∧
      s.contains '"' = false ∧ s.head? ≠ some '[' ∧ s.head? ≠ some '{' := by
  simp only [needsQuote, Bool.or_eq_false_iff, decide_eq_false_iff_not] at h
  exact ⟨h.1.1.1.1.1, h.1.1.1.1.2, h.1.1.1.2, h.1.1.2, h.1.2, h.2⟩

theorem needsQuote_intToChars (n : Int) : needsQuote (intToChars n) = false := by
  have hc : ∀ c ∈ intToChars n, c ≠ ',' ∧ c ≠ '\n' ∧ c ≠ ':' ∧ c ≠ '"' ∧ c ≠ '[' ∧ c ≠ '{' := by
    intro c hc
    rcases intToChars_chars n c hc with h | h
    · subst h; exact ⟨by decide, by decide, by decide, by decide, by decide, by decide⟩
    · refine ⟨?_, ?_, ?_, ?_, ?_, ?_⟩ <;> (intro he; subst he; exact absurd h (by decide))
  have hnc : ∀ x : Char, (x = ',' ∨ x = '\n' ∨ x = ':' ∨ x = '"' ∨ x = '[' ∨ x = '{') →
      x ∉ intToChars n := by
    intro x hx hmem
    obtain ⟨h1, h2, h3, h4, h5, h6⟩ := hc x hmem
    rcases hx with h | h | h | h | h | h <;> simp_all
  have hh : ∀ x : Char, (x = '[' ∨ x = '{') → (intToChars n).head? ≠ some x := by
    intro x hx he
    exact hnc x (by tauto) (List.mem_of_mem_head? (by simp [he]))
  simp only [needsQuote, Bool.or_eq_false_iff, decide_eq_false_iff_not]
  refine ⟨⟨⟨⟨⟨?_, ?_⟩, ?_⟩, ?_⟩, ?_⟩, ?_⟩ <;>
    first
      | (simp only [List.contains_eq_any_beq, List.any_eq_false]
         intro c hcm
         simp only [beq_iff_eq]
         intro he
         subst he
         revert hcm
         exact hnc _ (by tauto))
      | exact hh _ (by tauto)

theorem escapeVal_null : escapeVal .null = "null".toList := rfl

theorem escapeVal_of_not_quote (v : Value) (hq : needsQuote (jsStringOf v) = false) :
    escapeVal v = jsStringOf v := by
  cases v with
  | null => rw [escapeVal_null, jsStringOf]
  | bool b => simp only [escapeVal, hq]; rfl
  | num q => simp only [escapeVal, hq]; rfl
  | str s => simp only [escapeVal, hq]; rfl
  | arr xs => simp only [escapeVal, hq]; rfl
  | obj es => simp only [escapeVal, hq]; rfl

theorem escapeVal_of_quote (v : Value) (hv : isNullV v = false)
    (hq : needsQuote (jsStringOf v) = true) :
    escapeVal v = '"' :: (doubleQuotes (jsStringOf v) ++ ['"']) := by
  cases v with
  | null => simp [isNullV] at hv
  | bool b => simp only [escapeVal, hq]; rfl
  | num q => simp only [escapeVal, hq]; rfl
  | str s => simp only [escapeVal, hq]; rfl
  | arr xs => simp only [escapeVal, hq]; rfl
  | obj es => simp only [escapeVal, hq]; rfl

theorem parseValue_escapeVal (v : Value) (h : goodScalarB v = true) :
    parseValue (escapeVal v) = v := by
  cases hv : isNullV v with
  | true =>
    have : v = .null := by cases v <;> simp_all [isNullV]
    subst this
    rw [escapeVal_null]
    exact rfl
  | false =>
    cases hq : needsQuote (jsStringOf v) with
    | false => rw [escapeVal_of_not_quote v hq]; exact parseValue_scalar v h
    | true =>
      rw [escapeVal_of_quote v hv hq, parseValue_quoted]
      cases v with
      | str s => rw [jsStringOf]
      | null => simp [isNullV] at hv
      | bool b =>
        exfalso
        cases b <;> (rw [jsStringOf] at hq; exact absurd hq (by decide))
      | num q =>
        exfalso
        simp only [goodScalarB, Bool.and_eq_true, beq_iff_eq, decide_eq_true_eq] at h
        rw [jsStringOf, numToChars, if_pos h.1, needsQuote_intToChars] at hq
        exact absurd hq (by simp)
      | arr xs => simp [goodScalarB] at h
      | obj es => simp [goodScalarB] at h

/-! ## Helper lemmas: escaped cell rows through the CSV scanner -/

theorem not_mem_of_contains_false {l : LC} {c : Char} (h : l.contains c = false) :
    ¬c ∈ l := by
  intro hm
  rw [← List.elem_iff (α := Char)] at hm
  rw [show l.contains c = l.elem c from rfl, hm] at h
  exact absurd h (by simp)

theorem intercalate_cons_ne (s a : LC) (rest : List LC) (h : rest ≠ []) :
    List.intercalate s (a :: rest) = a ++ s ++ List.intercalate s rest := by
  cases rest with
  | nil => exact absurd rfl h
  | cons b t => simp [List.intercalate, List.intersperse]

theorem intercalate_singleton (s a : LC) : List.intercalate s [a] = a := by
  simp [List.intercalate]

theorem quote_imp_not_null (v : Value) :
    needsQuote (jsStringOf v) = true → isNullV v = false := by
  intro hq
  cases v <;> first
    | rfl
    | (rw [jsStringOf] at hq; exact absurd hq (by decide))

theorem csvGo_cell_last (v : Value) (hpv : parseValue (jsStringOf v) = v) :
    parseCSVGo (escapeVal v) [] false = [v] := by
  cases hq : needsQuote (jsStringOf v) with
  | false =>
    obtain ⟨hc1, _, _, hc4, _, _⟩ := needsQuote_elim hq
    rw [escapeVal_of_not_quote v hq]
    have := csvGo_raw (jsStringOf v) (by simpa using not_mem_of_contains_false hc4)
      (by simpa using not_mem_of_contains_false hc1) [] []
    rw [List.append_nil] at this
    rw [this, csvGo_nil, List.nil_append, hpv]
  | true =>
    rw [escapeVal_of_quote v (quote_imp_not_null v hq) hq, csvGo_open]
    rw [show (doubleQuotes (jsStringOf v) ++ ['"'] : LC) =
      doubleQuotes (jsStringOf v) ++ '"' :: [] from rfl]
    rw [csvGo_quoted, csvGo_close _ _ (by simp), csvGo_nil, List.nil_append,
      hpv]

theorem csvGo_cell_cons (v : Value) (hpv : parseValue (jsStringOf v) = v) (s' : LC) :
    parseCSVGo (escapeVal v ++ ',' :: s') [] false = v :: parseCSVGo s' [] false := by
  cases hq : needsQuote (jsStringOf v) with
  | false =>
    obtain ⟨hc1, _, _, hc4, _, _⟩ := needsQuote_elim hq
    rw [escapeVal_of_not_quote v hq,
      csvGo_raw (jsStringOf v) (by simpa using not_mem_of_contains_false hc4)
        (by simpa using not_mem_of_contains_false hc1) _ [],
      csvGo_comma, List.nil_append, hpv]
  | true =>
    rw [escapeVal_of_quote v (quote_imp_not_null v hq) hq]
    rw [show ('"' :: (doubleQuotes (jsStringOf v) ++ ['"']) ++ ',' :: s' : LC) =
      '"' :: (doubleQuotes (jsStringOf v) ++ '"' :: (',' :: s')) from by simp]
    rw [csvGo_open, csvGo_quoted, csvGo_close _ _ (by simp), csvGo_comma, List.nil_append,
      hpv]

theorem parseCSV_cells (vs : List Value) (h : ∀ v ∈ vs, goodScalarB v = true)
    (hne : vs ≠ []) :
    parseCSV (List.intercalate [','] (vs.map escapeVal)) = vs := by
  induction vs with
  | nil => exact absurd rfl hne
  | cons v vs' ih =>
    cases vs' with
    | nil =>
      rw [List.map_cons, List.map_nil, intercalate_singleton, parseCSV]
      exact csvGo_cell_last v (parseValue_scalar v (h v (by simp)))
    | cons w ws =>
      rw [List.map_cons, intercalate_cons_ne _ _ _ (by simp), parseCSV]
      rw [show escapeVal v ++ [','] ++ List.intercalate [','] ((w :: ws).map escapeVal) =
        escapeVal v ++ ',' :: List.intercalate [','] ((w :: ws).map escapeVal) from by simp]
      rw [csvGo_cell_cons v (parseValue_scalar v (h v (by simp)))]
      have := ih (fun x hx => h x (by simp [hx])) (by simp)
      rw [parseCSV] at this
      rw [this]

/-! ## C4: the cell-escaping condition -/

theorem needsQuote_eq_spec (s : LC) : needsQuote s = specNeedsQuote s := rfl

/-- C4: a field string is wrapped in double quotes with internal quotes
doubled iff the raw text contains a comma, a newline, a colon, or a double
quote, or starts with `[` or `{` (the condition `specNeedsQuote`, written from
the claim); otherwise it is emitted raw and unchanged. -/
theorem c4_escape_iff (s : LC) :
    escapeVal (.str s) =
      if specNeedsQuote s = true then '"' :: (doubleQuotes s ++ ['"']) else s := by
  rw [← needsQuote_eq_spec]
  cases hq : needsQuote s with
  | true =>
    rw [if_pos rfl, escapeVal_of_quote (.str s) rfl (by rw [jsStringOf]; exact hq)]
    rw [jsStringOf]
  | false =>
    rw [if_neg (by simp), escapeVal_of_not_quote (.str s) (by rw [jsStringOf]; exact hq)]
    rw [jsStringOf]

/-! ## C3: unescape of escape -/

/-- C3 counterexample: the string `true` escapes to the bare cell `true`,
which the scalar parser turns into the boolean `true`, not the string. -/
theorem c3_counterexample :
    parseCSV (escapeVal (.str "true".toList)) = [.bool true] ∧
      Value.bool true ≠ Value.str "true".toList := by
  constructor
  · rw [escapeVal_of_not_quote _ (by rw [jsStringOf]; decide), jsStringOf]
    exact rfl
  · simp

/-- C3 (amended): unescaping the escaped form of `s` yields `s` for every
string `s` that is trim-invariant, not a scalar keyword, not numeric, and not
already wrapped in double quotes; this includes strings with commas, quotes,
colons, newlines, and leading `[`/`{`. -/
theorem c3_roundtrip_amended (s : LC) (h : plainStrB s = true) :
    parseCSV (escapeVal (.str s)) = [.str s] := by
  rw [parseCSV]
  exact csvGo_cell_last (.str s) (by rw [jsStringOf]; exact parseValue_plain s h)

/-- C3 witness: a concrete comma-carrying string round-trips. -/
theorem c3_roundtrip_amended_witness :
    plainStrB "a,b".toList = true ∧
      parseCSV (escapeVal (.str "a,b".toList)) = [.str "a,b".toList] :=
  ⟨by decide, c3_roundtrip_amended "a,b".toList (by decide)⟩

/-! ## C7: the statistics formula -/

/-- C7 counterexample: with `jsonChars = 0` the source divides by zero and
`savingsPercent` is non-finite (`none` in the model), not `0`. -/
theorem c7_counterexample :
    (calculateTokenStats [] []).savingsPercent = none ∧ (none : Option ℤ) ≠ some 0 :=
  ⟨rfl, by simp⟩

/-- C7 (amended): for a non-empty `jsonStr` the percentage is
`round((jsonChars − toonChars) / jsonChars · 100)`; for `jsonChars = 0` the
unguarded division makes it non-finite (`none`). -/
theorem c7_savings_formula (j t : LC) (h : j ≠ []) :
    (calculateTokenStats j t).savingsPercent =
      some (jsRound ((((j.length : ℚ) - (t.length : ℚ)) / (j.length : ℚ)) * 100)) := by
  simp only [calculateTokenStats]
  rw [if_neg (by simpa using h)]

/-- C7 witness: concrete strings of lengths 4 and 2 give 50 percent. -/
theorem c7_savings_formula_witness :
    "aaaa".toList ≠ [] ∧
      (calculateTokenStats "aaaa".toList "aa".toList).savingsPercent =
        some (jsRound ((((("aaaa".toList : LC).length : ℚ) -
          (("aa".toList : LC).length : ℚ)) / (("aaaa".toList : LC).length : ℚ)) * 100)) :=
  ⟨by decide, c7_savings_formula "aaaa".toList "aa".toList (by decide)⟩

/-! ## C2: the uniformity classification -/

/-- C2 counterexample: `[{}]` is non-empty, its only element is a non-array
object, and every element trivially shares the first element's (empty) key
set, yet `isUniformArray` rejects it because the first element has no keys. -/
theorem c2_counterexample :
    isUniformArray [Value.obj []] = false ∧
      ([Value.obj []] ≠ ([] : List Value) ∧
        ∀ item ∈ [Value.obj []], isObjV item = true ∧
          ∀ k : LC, k ∈ objKeys item ↔ k ∈ objKeys (Value.obj [])) := by
  refine ⟨rfl, by simp, ?_⟩
  intro item hm
  simp only [List.mem_singleton] at hm
  subst hm
  exact ⟨rfl, fun k => Iff.rfl⟩

theorem isUniformArray_cons_obj (x : Value) (rest : List Value) (hobj : isObjV x = true)
    (hke : objKeys x ≠ []) :
    isUniformArray (x :: rest) =
      ((x :: rest).all fun item =>
        isObjV item && decide ((objKeys item).length = (objKeys x).length) &&
          ((objKeys x).all fun k => decide (k ∈ objKeys item))) := by
  rw [isUniformArray, hobj]
  simp [hke]

theorem isUniformArray_cons_nonobj (x : Value) (rest : List Value) (hobj : isObjV x = false) :
    isUniformArray (x :: rest) = false := by
  rw [isUniformArray, hobj]
  simp

theorem isUniformArray_cons_nokeys (x : Value) (rest : List Value) (hobj : isObjV x = true)
    (hke : objKeys x = []) :
    isUniformArray (x :: rest) = false := by
  rw [isUniformArray, hobj]
  simp [hke]

/-- C2 (amended): for arrays whose elements carry duplicate-free key lists
(as JS objects always do), `isUniformArray` accepts exactly the non-empty
arrays of non-array objects in which every element shares the first element's
key set — with the additional requirement, absent from the claim, that the
first element have at least one key.  The right-hand side mentions only key
sets, so the classification is invariant under permutation of keys within
each element. -/
theorem c2_uniform_iff (xs : List Value) (hnd : ∀ v ∈ xs, (objKeys v).Nodup) :
    isUniformArray xs = true ↔
      ∃ x rest, xs = x :: rest ∧ isObjV x = true ∧ objKeys x ≠ [] ∧
        ∀ item ∈ xs, isObjV item = true ∧
          ∀ k, k ∈ objKeys item ↔ k ∈ objKeys x := by
  cases xs with
  | nil => simp [isUniformArray]
  | cons x rest =>
    cases hobj : isObjV x with
    | false =>
      rw [isUniformArray_cons_nonobj x rest hobj]
      constructor
      · intro h; exact absurd h (by simp)
      · rintro ⟨x', rest', he, hx', -, -⟩
        rw [List.cons.injEq] at he
        rw [← he.1] at hx'
        rw [hobj] at hx'
        exact absurd hx' (by simp)
    | true =>
      by_cases hke : objKeys x = []
      · rw [isUniformArray_cons_nokeys x rest hobj hke]
        constructor
        · intro h; exact absurd h (by simp)
        · rintro ⟨x', rest', he, -, hne, -⟩
          rw [List.cons.injEq] at he
          rw [← he.1] at hne
          exact absurd hke hne
      · rw [isUniformArray_cons_obj x rest hobj hke]
        constructor
        · intro h
          refine ⟨x, rest, rfl, hobj, hke, ?_⟩
          intro item hm
          have hall := List.all_eq_true.mp h item hm
          simp only [Bool.and_eq_true, decide_eq_true_eq] at hall
          obtain ⟨⟨hio, hlen⟩, hsub⟩ := hall
          refine ⟨hio, ?_⟩
          have hsub' : objKeys x ⊆ objKeys item := by
            intro k hk
            have := List.all_eq_true.mp hsub k hk
            simpa using this
          have hsp : List.Subperm (objKeys x) (objKeys item) :=
            List.subperm_of_subset (hnd x (by simp)) hsub'
          have hperm : (objKeys x).Perm (objKeys item) :=
            hsp.perm_of_length_le (by omega)
          exact fun k => hperm.mem_iff.symm
        · rintro ⟨x', rest', he, -, -, hiff⟩
          rw [List.cons.injEq] at he
          obtain ⟨hx, hr⟩ := he
          subst hx; subst hr
          rw [List.all_eq_true]
          intro item hm
          obtain ⟨hio, hkk⟩ := hiff item hm
          have h1 : objKeys item ⊆ objKeys x := fun k hk => (hkk k).mp hk
          have h2 : objKeys x ⊆ objKeys item := fun k hk => (hkk k).mpr hk
          have hperm : (objKeys item).Perm (objKeys x) :=
            (List.subperm_of_subset (hnd item hm) h1).antisymm
              (List.subperm_of_subset (hnd x (by simp)) h2)
          simp only [Bool.and_eq_true, decide_eq_true_eq]
          refine ⟨⟨hio, hperm.length_eq⟩, ?_⟩
          rw [List.all_eq_true]
          intro k hk
          simpa using h2 hk

/-- C2 witness: a concrete uniform two-element array instantiates the
amended equivalence. -/
theorem c2_uniform_iff_witness :
    isUniformArray [Value.obj [("a".toList, .num 1)], Value.obj [("a".toList, .num 2)]] = true ↔
      ∃ x rest,
        [Value.obj [("a".toList, .num 1)], Value.obj [("a".toList, .num 2)]] = x :: rest ∧
          isObjV x = true ∧ objKeys x ≠ [] ∧
          ∀ item ∈ [Value.obj [("a".toList, .num 1)], Value.obj [("a".toList, .num 2)]],
            isObjV item = true ∧ ∀ k, k ∈ objKeys item ↔ k ∈ objKeys x :=
  c2_uniform_iff _ (by decide)

/-- C9: the encoder output has no leading or trailing whitespace — it is a
fixed point of JS `trim` (the source trims the full encoding before returning
it, and `trim` is idempotent). -/
theorem c9_trimmed (v : Value) : jsTrim (convertToToon v) = convertToToon v := by
  rw [convertToToon, jsTrim_idem]

theorem escapeVal_bool (b : Bool) :
    escapeVal (.bool b) = if b then "true".toList else "false".toList := by
  cases b <;> (rw [escapeVal_of_not_quote _ (by rw [jsStringOf]; decide), jsStringOf]) <;> rfl

theorem escapeVal_int (q : ℚ) (h : q.den = 1) : escapeVal (.num q) = intToChars q.num := by
  have hs : jsStringOf (Value.num q) = intToChars q.num := by
    rw [jsStringOf, numToChars, if_pos h]
  rw [escapeVal_of_not_quote _ (by rw [hs]; exact needsQuote_intToChars _), hs]

/-- C8: encoding the two-element uniform array `[{"id":1,"ok":true},
{"id":2,"ok":false}]` produces exactly the root tabular text
`table[2]{id,ok}:` followed by the two indented rows. -/
theorem c8_example :
    convertToToon (.arr [.obj [("id".toList, .num 1), ("ok".toList, .bool true)],
                         .obj [("id".toList, .num 2), ("ok".toList, .bool false)]]) =
      "table[2]\x7bid,ok\x7d:\n  1,true\n  2,false".toList := by
  rw [convertToToon, encode]
  rw [if_neg (by decide), if_pos (by decide)]
  have hk : objKeys (Value.obj [("id".toList, Value.num 1), ("ok".toList, Value.bool true)]) =
      ["id".toList, "ok".toList] := rfl
  rw [hk]
  simp only [List.map_cons, List.map_nil]
  rw [show objGetD (Value.obj [("id".toList, Value.num 1), ("ok".toList, Value.bool true)])
        ("id".toList) = Value.num 1 from rfl,
    show objGetD (Value.obj [("id".toList, Value.num 1), ("ok".toList, Value.bool true)])
        ("ok".toList) = Value.bool true from rfl,
    show objGetD (Value.obj [("id".toList, Value.num 2), ("ok".toList, Value.bool false)])
        ("id".toList) = Value.num 2 from rfl,
    show objGetD (Value.obj [("id".toList, Value.num 2), ("ok".toList, Value.bool false)])
        ("ok".toList) = Value.bool false from rfl]
  rw [escapeVal_int 1 (by decide), escapeVal_int 2 (by decide), escapeVal_bool, escapeVal_bool]
  decide

/-! ## Helper lemmas: line-classification matchers -/

theorem drop_takeWhile_length (p : Char → Bool) (l : LC) :
    l.drop (l.takeWhile p).length = l.dropWhile p := by
  induction l with
  | nil => rfl
  | cons c t ih =>
    by_cases h : p c
    · simp [List.takeWhile_cons, List.dropWhile_cons, h, ih]
    · simp [List.takeWhile_cons, List.dropWhile_cons, h]

theorem takeWhile_split (p : Char → Bool) (l : LC) :
    l = l.takeWhile p ++ l.drop (l.takeWhile p).length := by
  rw [drop_takeWhile_length, List.takeWhile_append_dropWhile]

theorem append_sep_eq {a b u v : LC} {x y : Char}
    (hab : a ++ x :: u = b ++ y :: v) (hxb : x ∉ b) (hya : y ∉ a) :
    a = b ∧ x = y ∧ u = v := by
  induction a generalizing b with
  | nil =>
    cases b with
    | nil => simp_all
    | cons bh bt =>
      simp only [List.nil_append, List.cons_append, List.cons.injEq] at hab
      exact absurd (hab.1 ▸ List.mem_cons_self bh bt) hxb
  | cons ah at' ih =>
    cases b with
    | nil =>
      simp only [List.cons_append, List.nil_append, List.cons.injEq] at hab
      exact absurd (hab.1.symm ▸ List.mem_cons_self ah at') hya
    | cons bh bt =>
      simp only [List.cons_append, List.cons.injEq] at hab
      have := ih hab.2 (fun hm => hxb (List.mem_cons_of_mem bh hm))
        (fun hm => hya (List.mem_cons_of_mem ah hm))
      refine ⟨by rw [hab.1, this.1], this.2.1, this.2.2⟩

theorem keyValMatch_some {content k' v' : LC}
    (h : keyValMatch content = some (k', v')) :
    ∃ rest, content = k' ++ ':' :: rest ∧ k' ≠ [] ∧ k'.all wordChar = true ∧
      v' = rest.dropWhile isJsWs := by
  rw [keyValMatch] at h
  by_cases hw : content.takeWhile wordChar = []
  · rw [if_pos hw] at h; exact absurd h (by simp)
  · rw [if_neg hw] at h
    split at h
    · rename_i rest hd
      rw [Option.some.injEq, Prod.mk.injEq] at h
      obtain ⟨h1, h2⟩ := h
      refine ⟨rest, ?_, by rw [← h1]; exact hw, by rw [← h1]; exact List.all_takeWhile, h2.symm⟩
      rw [← h1]
      conv_lhs => rw [takeWhile_split wordChar content]
      rw [hd]
    · exact absurd h (by simp)

theorem tableStartMatch_some {content h' : LC}
    (h : tableStartMatch content = some h') :
    ∃ w d r3, content = w ++ '[' :: (d ++ ']' :: '{' :: r3) ∧ w ≠ [] ∧
      w.all wordChar = true ∧ d ≠ [] ∧ d.all Char.isDigit = true ∧
      3 ≤ r3.length ∧ r3.drop (r3.length - 2) = "\x7d:".toList ∧
      h' = r3.take (r3.length - 2) := by
  rw [tableStartMatch] at h
  by_cases hw : content.takeWhile wordChar = []
  · rw [if_pos hw] at h; exact absurd h (by simp)
  · rw [if_neg hw] at h
    split at h
    case _ r2 hd2 =>
      by_cases hdd : r2.takeWhile Char.isDigit = []
      · rw [if_pos hdd] at h; exact absurd h (by simp)
      · rw [if_neg hdd] at h
        split at h
        case _ r3 hd3 =>
          by_cases hlen : 3 ≤ r3.length ∧ r3.drop (r3.length - 2) = "\x7d:".toList
          · rw [if_pos hlen] at h
            rw [Option.some.injEq] at h
            refine ⟨content.takeWhile wordChar, r2.takeWhile Char.isDigit, r3, ?_, hw,
              List.all_takeWhile, hdd, List.all_takeWhile, hlen.1, hlen.2, h.symm⟩
            conv_lhs => rw [takeWhile_split wordChar content]
            rw [hd2]
            congr 1
            congr 1
            conv_lhs => rw [takeWhile_split Char.isDigit r2]
            rw [hd3]
          · rw [if_neg hlen] at h; exact absurd h (by simp)
        case _ => exact absurd h (by simp)
    case _ => exact absurd h (by simp)

theorem bracketTail_some {r2 cells : LC} (h : bracketTail r2 = some cells) :
    ∃ d rest, r2 = d ++ ']' :: ':' :: rest ∧ d ≠ [] ∧ d.all Char.isDigit = true ∧
      cells = rest.dropWhile isJsWs := by
  rw [bracketTail] at h
  by_cases hdd : r2.takeWhile Char.isDigit = []
  · rw [if_pos hdd] at h; exact absurd h (by simp)
  · rw [if_neg hdd] at h
    split at h
    case _ rest hd3 =>
      rw [Option.some.injEq] at h
      refine ⟨r2.takeWhile Char.isDigit, rest, ?_, hdd, List.all_takeWhile, h.symm⟩
      conv_lhs => rw [takeWhile_split Char.isDigit r2]
      rw [hd3]
    case _ => exact absurd h (by simp)

theorem not_mem_bracket_digits {d : LC} (hdig : d.all Char.isDigit = true) (x : Char)
    (hx1 : x ≠ '[') (hx2 : x ≠ ']') (hx3 : x.isDigit = false) :
    x ∉ ('[' :: (d ++ [']']) : LC) := by
  intro hm
  rcases List.mem_cons.mp hm with h1 | h1
  · exact hx1 h1
  · rcases List.mem_append.mp h1 with h2 | h2
    · rw [List.all_eq_true.mp hdig x h2] at hx3; exact absurd hx3 (by simp)
    · exact hx2 (List.mem_singleton.mp h2)

theorem arrayStartMatch_some {content cells : LC}
    (h : arrayStartMatch content = some cells) :
    ∃ a rest, content = a ++ ':' :: rest ∧ cells = rest.dropWhile isJsWs ∧
      (',' ∉ a) ∧ ('"' ∉ a) ∧ (':' ∉ a) ∧ ('[' ∈ a) ∧
      (a.head? = some '[' ∨ ∃ c, a.head? = some c ∧ wordChar c = true) := by
  rw [arrayStartMatch] at h
  by_cases hc0 : content.head? = some '['
  · rw [if_pos hc0] at h
    obtain ⟨c0, t0, hct⟩ : ∃ c0 t0, content = c0 :: t0 := by
      cases content with
      | nil => simp at hc0
      | cons a b => exact ⟨a, b, rfl⟩
    rw [hct] at hc0
    simp only [List.head?_cons, Option.some.injEq] at hc0
    subst hc0
    rw [hct] at h
    simp only [List.drop_succ_cons, List.drop_zero] at h
    obtain ⟨d, rest, he, hdne, hdig, hc⟩ := bracketTail_some h
    refine ⟨'[' :: (d ++ [']']), rest, ?_, hc, ?_, ?_, ?_, by simp, by simp⟩
    · rw [hct, he]; simp
    · exact not_mem_bracket_digits hdig ',' (by decide) (by decide) (by decide)
    · exact not_mem_bracket_digits hdig '"' (by decide) (by decide) (by decide)
    · exact not_mem_bracket_digits hdig ':' (by decide) (by decide) (by decide)
  · rw [if_neg hc0] at h
    by_cases hw : content.takeWhile wordChar = []
    · rw [if_pos hw] at h; exact absurd h (by simp)
    · rw [if_neg hw] at h
      split at h
      case _ r2 hd2 =>
        obtain ⟨d, rest, he, hdne, hdig, hc⟩ := bracketTail_some h
        refine ⟨content.takeWhile wordChar ++ '[' :: (d ++ [']']), rest, ?_, hc, ?_, ?_, ?_,
          by simp, ?_⟩
        · conv_lhs => rw [takeWhile_split wordChar content]
          rw [hd2, he]
          simp
        · intro hm
          rcases List.mem_append.mp hm with h1 | h1
          · exact absurd (List.mem_takeWhile_imp h1) (by decide)
          · exact not_mem_bracket_digits hdig ',' (by decide) (by decide) (by decide) h1
        · intro hm
          rcases List.mem_append.mp hm with h1 | h1
          · exact absurd (List.mem_takeWhile_imp h1) (by decide)
          · exact not_mem_bracket_digits hdig '"' (by decide) (by decide) (by decide) h1
        · intro hm
          rcases List.mem_append.mp hm with h1 | h1
          · exact absurd (List.mem_takeWhile_imp h1) (by decide)
          · exact not_mem_bracket_digits hdig ':' (by decide) (by decide) (by decide) h1
        · right
          obtain ⟨c, cs, hcc⟩ := List.exists_cons_of_ne_nil hw
          refine ⟨c, by rw [hcc]; simp, ?_⟩
          exact List.mem_takeWhile_imp (by rw [hcc]; exact List.mem_cons_self c cs)
      case _ => exact absurd h (by simp)

/-! ## Helper lemmas: `processLine` branch reductions -/

theorem processLine_skip (st : DecState) (l : LC)
    (ht : tableStartMatch (jsTrim l) = none)
    (ha : arrayStartMatch (jsTrim l) = none)
    (hk : keyValMatch (jsTrim l) = none)
    (hnt : ∀ f rest, popFrames st.stack ((l.takeWhile isJsWs).length) = f :: rest →
      f.kind ≠ .kTable) :
    processLine st l = { st with stack := popFrames st.stack ((l.takeWhile isJsWs).length) } := by
  rw [processLine]
  simp only [ht, ha, hk]
  rw [processLine.afterKeyVal]
  cases hp : popFrames st.stack ((l.takeWhile isJsWs).length) with
  | nil => simp [hp]
  | cons f rest =>
    simp only [hp]
    rw [if_neg (hnt f rest hp)]

theorem processLine_row (st : DecState) (l : LC)
    (ht : tableStartMatch (jsTrim l) = none)
    (ha : arrayStartMatch (jsTrim l) = none)
    (hk : keyValMatch (jsTrim l) = none)
    (f : Frame) (rest : List Frame)
    (hp : popFrames st.stack ((l.takeWhile isJsWs).length) = f :: rest)
    (hf : f.kind = .kTable) :
    processLine st l =
      pushLoc { st with stack := f :: rest } f.loc
        (buildRow f.headers (parseCSV (jsTrim l))) := by
  rw [processLine]
  simp only [ht, ha, hk]
  rw [processLine.afterKeyVal]
  simp only [hp]
  rw [if_pos hf]

theorem processLine_table_root (st : DecState) (l : LC) (hh : LC)
    (hts : tableStartMatch (jsTrim l) = some hh)
    (hroot : "table".toList.isPrefixOf (jsTrim l) = true) :
    processLine st l =
      { root := some (.arr [])
        stack := ⟨.rooted [], .kTable, (l.takeWhile isJsWs).length, none,
          List.splitOn ',' hh⟩ :: popFrames st.stack ((l.takeWhile isJsWs).length) } := by
  rw [processLine]
  simp only [hts]
  rw [if_pos hroot]

theorem processLine_keyval_prim (st : DecState) (l k v : LC)
    (ht : tableStartMatch (jsTrim l) = none)
    (ha : arrayStartMatch (jsTrim l) = none)
    (hkv : keyValMatch (jsTrim l) = some (k, v))
    (hd : ¬(jsTrim l).head? = some '-')
    (hv : ¬v = [])
    (hst : st.stack = []) :
    processLine st l =
      { st with
        root := some (match st.root.getD (.obj []) with
          | .obj es => .obj (objSet es k (parseValue v))
          | r => r) } := by
  obtain ⟨root, stack⟩ := st
  simp only at hst
  subst hst
  rw [processLine]
  simp only [ht, ha, hkv]
  rw [if_neg hd, if_neg hv]
  simp only [popFrames]
  cases root.getD (Value.obj []) <;> rfl

theorem nonword_not_mem {w : LC} (hall : w.all wordChar = true) {c : Char}
    (hc : wordChar c = false) : c ∉ w := by
  intro hm
  rw [List.all_eq_true.mp hall c hm] at hc
  exact absurd hc (by simp)

theorem objSet_fresh (es : List (LC × Value)) (k : LC) (v : Value)
    (h : k ∉ es.map Prod.fst) : objSet es k v = es ++ [(k, v)] := by
  induction es with
  | nil => rfl
  | cons e es' ih =>
    simp only [List.map_cons, List.mem_cons, not_or] at h
    rw [objSet, if_neg (fun he => h.1 he.symm), ih h.2]
    rfl

theorem foldl_objSet_fresh (values : List Value) :
    ∀ (ps : List (Nat × LC)) (acc : List (LC × Value)),
      (ps.map Prod.snd).Nodup → (∀ p ∈ ps, p.2 ∉ acc.map Prod.fst) →
      ps.foldl (fun acc2 hi => objSet acc2 hi.2 (values.getD hi.1 .null)) acc =
        acc ++ ps.map fun hi => (hi.2, values.getD hi.1 .null) := by
  intro ps
  induction ps with
  | nil => intro acc _ _; simp
  | cons p ps' ih =>
    intro acc hnd hdisj
    simp only [List.map_cons, List.nodup_cons] at hnd
    rw [List.foldl_cons, objSet_fresh acc p.2 _ (hdisj p (by simp)),
      ih _ hnd.2 ?_]
    · simp
    · intro q hq
      simp only [List.map_append, List.map_cons, List.map_nil, List.mem_append,
        List.mem_singleton, not_or]
      refine ⟨fun hm => hdisj q (by simp [hq]) hm, fun he => ?_⟩
      exact hnd.1 (he ▸ List.mem_map_of_mem Prod.snd hq)

theorem buildRow_eq_spec (headers : List LC) (values : List Value)
    (hnd : headers.Nodup) : buildRow headers values = specZipRow headers values := by
  rw [buildRow, specZipRow]
  rw [foldl_objSet_fresh values headers.enum []
    (by rw [List.enum_map_snd]; exact hnd) (by simp)]
  rw [List.nil_append]

/-! ## C5: unmatched lines -/

/-- C5 counterexample: the unmatched non-blank line `x` arriving at indent 0
pops the open object frame, so the frame stack is NOT left unchanged (the
root is — but the stack shrinks from one frame to none). -/
theorem c5_counterexample :
    jsTrim "x".toList ≠ [] ∧
      tableStartMatch (jsTrim "x".toList) = none ∧
      arrayStartMatch (jsTrim "x".toList) = none ∧
      keyValMatch (jsTrim "x".toList) = none ∧
      (jsTrim "x".toList).head? ≠ some '-' ∧
      (processLine
          ⟨some (.obj [("a".toList, .obj [])]),
            [⟨.rooted ["a".toList], .kObject, 0, some "a".toList, []⟩]⟩
          "x".toList).stack = [] ∧
      ([⟨Loc.rooted ["a".toList], FrameKind.kObject, 0, some "a".toList, []⟩] :
          List Frame) ≠ [] ∧
      (processLine
          ⟨some (.obj [("a".toList, .obj [])]),
            [⟨.rooted ["a".toList], .kObject, 0, some "a".toList, []⟩]⟩
          "x".toList).root = some (.obj [("a".toList, .obj [])]) :=
  ⟨by decide, rfl, rfl, rfl, by decide, rfl, by simp, rfl⟩

/-- C5 (amended): the decoder is total; a non-blank line matching none of the
classifications is silently ignored in the sense that the root is unchanged
and no frame is pushed — but the indentation rule that precedes
classification still pops every frame whose `openIndent` is ≥ the line's
indent, so the stack can shrink. -/
theorem c5_ignored_line (st : DecState) (l : LC)
    (hb : jsTrim l ≠ [])
    (ht : tableStartMatch (jsTrim l) = none)
    (ha : arrayStartMatch (jsTrim l) = none)
    (hk : keyValMatch (jsTrim l) = none)
    (hd : (jsTrim l).head? ≠ some '-')
    (hnt : ∀ f rest, popFrames st.stack ((l.takeWhile isJsWs).length) = f :: rest →
      f.kind ≠ .kTable) :
    (processLine st l).root = st.root ∧
      (processLine st l).stack = popFrames st.stack ((l.takeWhile isJsWs).length) := by
  rw [processLine_skip st l ht ha hk hnt]
  exact ⟨rfl, rfl⟩

/-- C5 witness: the line `?` against an empty stack and an object root. -/
theorem c5_ignored_line_witness :
    (processLine ⟨some (.obj []), ([] : List Frame)⟩ "?".toList).root =
        (⟨some (.obj []), ([] : List Frame)⟩ : DecState).root ∧
      (processLine ⟨some (.obj []), ([] : List Frame)⟩ "?".toList).stack =
        popFrames (⟨some (.obj []), ([] : List Frame)⟩ : DecState).stack
          (("?".toList.takeWhile isJsWs).length) :=
  c5_ignored_line ⟨some (.obj []), []⟩ "?".toList (by decide) rfl rfl rfl (by decide)
    (by intro f rest h; rw [popFrames] at h; exact absurd h (by simp))

/-! ## C6: table rows -/

/-- C6: when the (post-pop) top frame is a Table frame and the line matches
neither header nor key classification, the decoder parses the line with the
CSV-cell scanner and appends to the frame's array the object obtained by
zipping the parsed cells against the frame's headers in order — cells beyond
the headers are dropped, missing trailing cells become Null
(`specZipRow`, the zip as the claim words it). -/
theorem c6_table_row (st : DecState) (l : LC) (f : Frame) (rest : List Frame)
    (ht : tableStartMatch (jsTrim l) = none)
    (ha : arrayStartMatch (jsTrim l) = none)
    (hk : keyValMatch (jsTrim l) = none)
    (hp : popFrames st.stack ((l.takeWhile isJsWs).length) = f :: rest)
    (hf : f.kind = .kTable)
    (hnd : f.headers.Nodup) :
    processLine st l =
      pushLoc { st with stack := f :: rest } f.loc
        (specZipRow f.headers (parseCSV (jsTrim l))) := by
  rw [processLine_row st l ht ha hk f rest hp hf, buildRow_eq_spec _ _ hnd]

/-- C6 witness: a two-cell row `1,x` against a one-header table frame —
the extra cell is dropped; a row `1` against a two-header frame would pad
with null. -/
theorem c6_table_row_witness :
    processLine
        ⟨some (.arr []), [⟨.rooted [], .kTable, 0, none, ["h".toList]⟩]⟩
        "  1,x".toList =
      pushLoc
        ⟨some (.arr []), [⟨.rooted [], .kTable, 0, none, ["h".toList]⟩]⟩
        (Loc.rooted [])
        (specZipRow ["h".toList] (parseCSV (jsTrim "  1,x".toList))) :=
  c6_table_row ⟨some (.arr []), [⟨.rooted [], .kTable, 0, none, ["h".toList]⟩]⟩
    "  1,x".toList ⟨.rooted [], .kTable, 0, none, ["h".toList]⟩ [] rfl rfl rfl rfl rfl
    (by decide)

/-! ## C10: non-word keys match no classification -/
theorem tableStartMatch_none_key {k r : LC} (hck : ':' ∉ k) (hbk : '[' ∉ k) :
    tableStartMatch (k ++ ':' :: r) = none := by
  cases hm : tableStartMatch (k ++ ':' :: r) with
  | none => rfl
  | some hh =>
    obtain ⟨w, d, r3, he, -, hall, -, -, -, -, -⟩ := tableStartMatch_some hm
    obtain ⟨-, hxy, -⟩ := append_sep_eq (he.symm.trans rfl) hbk
      (nonword_not_mem hall (by decide))
    exact absurd hxy (by decide)

theorem arrayStartMatch_none_key {k r : LC} (hck : ':' ∉ k) (hbk : '[' ∉ k) :
    arrayStartMatch (k ++ ':' :: r) = none := by
  cases hm : arrayStartMatch (k ++ ':' :: r) with
  | none => rfl
  | some cells =>
    obtain ⟨a, rest, he, -, -, -, hca, hba, -⟩ := arrayStartMatch_some hm
    obtain ⟨hak, -, -⟩ := append_sep_eq (he.symm.trans rfl) hck hca
    exact absurd (hak ▸ hba) hbk

theorem keyValMatch_none_key {k r : LC} (hck : ':' ∉ k)
    (hw : ∃ c ∈ k, wordChar c = false) :
    keyValMatch (k ++ ':' :: r) = none := by
  cases hm : keyValMatch (k ++ ':' :: r) with
  | none => rfl
  | some p =>
    obtain ⟨k', v'⟩ := p
    obtain ⟨rest, he, -, hall, -⟩ := keyValMatch_some hm
    obtain ⟨hak, -, -⟩ := append_sep_eq (he.symm.trans rfl) hck
      (nonword_not_mem hall (by decide))
    obtain ⟨c, hcm, hcw⟩ := hw
    rw [← hak] at hcm
    rw [List.all_eq_true.mp hall c hcm] at hcw
    exact absurd hcw (by simp)

/-- C10: a line whose key (the text before its first colon, itself free of
`[`) contains any non-word character matches none of the table-header,
primitive-array-header, or key classifications; the decoder therefore treats
it as a table row when the (post-pop) top frame is a Table frame, and
otherwise leaves the state unchanged apart from the indentation-driven pops. -/
theorem c10_nonword_key (st : DecState) (l k r : LC)
    (he : jsTrim l = k ++ ':' :: r) (hk : k ≠ [])
    (hck : ':' ∉ k) (hbk : '[' ∉ k)
    (hw : ∃ c ∈ k, wordChar c = false) :
    tableStartMatch (jsTrim l) = none ∧ arrayStartMatch (jsTrim l) = none ∧
      keyValMatch (jsTrim l) = none ∧
      processLine st l =
        (match popFrames st.stack ((l.takeWhile isJsWs).length) with
         | f :: rest =>
           if f.kind = .kTable then
             pushLoc { st with stack := f :: rest } f.loc
               (buildRow f.headers (parseCSV (jsTrim l)))
           else { st with stack := f :: rest }
         | [] => { st with stack := [] }) := by
  have ht : tableStartMatch (jsTrim l) = none := by rw [he]; exact tableStartMatch_none_key hck hbk
  have ha : arrayStartMatch (jsTrim l) = none := by rw [he]; exact arrayStartMatch_none_key hck hbk
  have hkm : keyValMatch (jsTrim l) = none := by rw [he]; exact keyValMatch_none_key hck hw
  refine ⟨ht, ha, hkm, ?_⟩
  cases hp : popFrames st.stack ((l.takeWhile isJsWs).length) with
  | nil =>
    rw [processLine_skip st l ht ha hkm
      (by intro f rest h; rw [hp] at h; exact absurd h (by simp)), hp]
  | cons f rest =>
    cases hf : f.kind with
    | kTable =>
      rw [processLine_row st l ht ha hkm f rest hp hf]
      simp [hf]
    | kObject =>
      have hnt : ∀ f' rest',
          popFrames st.stack ((l.takeWhile isJsWs).length) = f' :: rest' →
            f'.kind ≠ FrameKind.kTable := by
        intro f' rest' h'
        rw [hp] at h'
        injection h' with h1 h2
        rw [← h1, hf]
        simp
      rw [processLine_skip st l ht ha hkm hnt, hp]
      simp [hf]
    | kArray =>
      have hnt : ∀ f' rest',
          popFrames st.stack ((l.takeWhile isJsWs).length) = f' :: rest' →
            f'.kind ≠ FrameKind.kTable := by
        intro f' rest' h'
        rw [hp] at h'
        injection h' with h1 h2
        rw [← h1, hf]
        simp
      rw [processLine_skip st l ht ha hkm hnt, hp]
      simp [hf]

/-- C10 witness: the key `my-key` (hyphen is not a word character) against an
empty stack: the line is dropped. -/
theorem c10_nonword_key_witness :
    tableStartMatch (jsTrim "my-key: 1".toList) = none ∧
      arrayStartMatch (jsTrim "my-key: 1".toList) = none ∧
      keyValMatch (jsTrim "my-key: 1".toList) = none ∧
      processLine (⟨none, []⟩ : DecState) "my-key: 1".toList =
        (match popFrames ([] : List Frame) (("my-key: 1".toList.takeWhile isJsWs).length) with
         | f :: rest =>
           if f.kind = .kTable then
             pushLoc { (⟨none, []⟩ : DecState) with stack := f :: rest } f.loc
               (buildRow f.headers (parseCSV (jsTrim "my-key: 1".toList)))
           else { (⟨none, []⟩ : DecState) with stack := f :: rest }
         | [] => { (⟨none, []⟩ : DecState) with stack := [] }) :=
  c10_nonword_key ⟨none, []⟩ "my-key: 1".toList "my-key".toList " 1".toList
    (by decide) (by decide) (by decide) (by decide) ⟨'-', by decide, by decide⟩

/-! ## Helper lemmas toward the round trip (C1) -/
theorem jsTrim_fix_parts {s : LC} (h : jsTrim s = s) :
    s.dropWhile isJsWs = s ∧ s.rdropWhile isJsWs = s := by
  obtain ⟨t1, ht1⟩ := List.dropWhile_suffix (l := s) isJsWs
  have hsuf : (jsTrimStart s).length ≤ s.length := by
    rw [jsTrimStart_eq_drop]
    conv_rhs => rw [← ht1]
    rw [List.length_append]
    omega
  have hlen2 : (jsTrim s).length ≤ (jsTrimStart s).length := by
    show (jsTrimEnd (jsTrimStart s)).length ≤ _
    rw [jsTrimEnd_eq_rdrop]
    obtain ⟨t, ht⟩ := List.rdropWhile_prefix isJsWs (jsTrimStart s)
    calc ((jsTrimStart s).rdropWhile isJsWs).length
        ≤ ((jsTrimStart s).rdropWhile isJsWs).length + t.length := by omega
      _ = (jsTrimStart s).length := by rw [← List.length_append, ht]
  rw [h] at hlen2
  have hstart : jsTrimStart s = s := by
    have : (jsTrimStart s).length = s.length := by omega
    rw [jsTrimStart_eq_drop] at this ⊢
    exact (List.dropWhile_suffix isJsWs).eq_of_length this
  refine ⟨hstart, ?_⟩
  have h2 := h
  rw [show jsTrim s = jsTrimEnd (jsTrimStart s) from rfl, hstart, jsTrimEnd_eq_rdrop] at h2
  exact h2

theorem head?_not_ws_of_drop_fix {s : LC} {c : Char} (h : s.dropWhile isJsWs = s)
    (hc : s.head? = some c) : isJsWs c = false := by
  rw [List.dropWhile_eq_self_iff] at h
  have hne : s ≠ [] := by intro he; rw [he] at hc; simp at hc
  have hget := h (List.length_pos.mpr hne)
  have hcc : s.head hne = c := by
    rw [List.head?_eq_head hne] at hc
    exact Option.some_inj.mp hc
  rw [List.head_eq_getElem_zero hne] at hcc
  simp only [List.get_eq_getElem] at hget
  rw [hcc] at hget
  simpa using hget

theorem getLast?_not_ws_of_rdrop_fix {s : LC} {c : Char} (h : s.rdropWhile isJsWs = s)
    (hc : s.getLast? = some c) : isJsWs c = false := by
  rw [List.rdropWhile_eq_self_iff] at h
  have hne : s ≠ [] := by intro he; rw [he] at hc; simp at hc
  have hget := h hne
  have hcc : s.getLast hne = c := by
    rw [List.getLast?_eq_getLast _ hne] at hc
    exact Option.some_inj.mp hc
  rw [hcc] at hget
  simpa using hget

theorem mem_doubleQuotes {c : Char} {s : LC} (h : c ∈ doubleQuotes s) :
    c = '"' ∨ c ∈ s := by
  induction s with
  | nil => simp [doubleQuotes] at h
  | cons a t ih =>
    by_cases ha : a = '"'
    · subst ha
      simp only [doubleQuotes, if_pos rfl] at h
      rcases List.mem_cons.mp h with h1 | h1
      · exact Or.inl h1
      rcases List.mem_cons.mp h1 with h2 | h2
      · exact Or.inl h2
      rcases ih h2 with h3 | h3
      · exact Or.inl h3
      · exact Or.inr (List.mem_cons_of_mem _ h3)
    · simp only [doubleQuotes, if_neg ha] at h
      rcases List.mem_cons.mp h with h1 | h1
      · exact Or.inr (by simp [h1])
      rcases ih h1 with h3 | h3
      · exact Or.inl h3
      · exact Or.inr (List.mem_cons_of_mem _ h3)

theorem goodStr_facts {s : LC} (h : goodStrB s = true) :
    s ≠ [] ∧ s.dropWhile isJsWs = s ∧ s.rdropWhile isJsWs = s ∧ ('\n' ∉ s) := by
  simp only [goodStrB, plainStrB, Bool.and_eq_true, beq_iff_eq, Bool.not_eq_true'] at h
  obtain ⟨⟨⟨⟨⟨htrim, -⟩, -⟩, -⟩, hemp⟩, hnl⟩ := h
  have hne : s ≠ [] := by
    intro he; rw [he] at hemp; exact absurd hemp (by decide)
  obtain ⟨h1, h2⟩ := jsTrim_fix_parts htrim
  exact ⟨hne, h1, h2, not_mem_of_contains_false hnl⟩

theorem escapeVal_good_facts (v : Value) (h : goodScalarB v = true) :
    escapeVal v ≠ [] ∧
      (∀ c, (escapeVal v).head? = some c → isJsWs c = false) ∧
      (∀ c, (escapeVal v).getLast? = some c → isJsWs c = false ∧ c ≠ ':') ∧
      ('\n' ∉ escapeVal v) := by
  have hnlv : '\n' ∉ jsStringOf v ∨ needsQuote (jsStringOf v) = false := by
    cases v with
    | str s =>
      left
      rw [jsStringOf]
      exact (goodStr_facts (by simpa [goodScalarB] using h)).2.2.2
    | null => right; rw [jsStringOf]; decide
    | bool b => right; cases b <;> (rw [jsStringOf]; decide)
    | num q =>
      right
      simp only [goodScalarB, Bool.and_eq_true, beq_iff_eq, decide_eq_true_eq] at h
      rw [jsStringOf, numToChars, if_pos h.1]
      exact needsQuote_intToChars _
    | arr xs => simp [goodScalarB] at h
    | obj es => simp [goodScalarB] at h
  cases hq : needsQuote (jsStringOf v) with
  | true =>
    rw [escapeVal_of_quote v (quote_imp_not_null v hq) hq]
    have hlast : ('"' :: (doubleQuotes (jsStringOf v) ++ ['"'])).getLast? = some '"' := by
      rw [show ('"' :: (doubleQuotes (jsStringOf v) ++ ['"'])) =
        ('"' :: doubleQuotes (jsStringOf v)) ++ ['"'] by simp, List.getLast?_concat]
    refine ⟨by simp, ?_, ?_, ?_⟩
    · intro c hc
      rw [List.head?_cons, Option.some.injEq] at hc
      rw [← hc]; decide
    · intro c hc
      rw [hlast, Option.some.injEq] at hc
      rw [← hc]; exact ⟨by decide, by decide⟩
    · intro hm
      rcases List.mem_cons.mp hm with h1 | h1
      · exact absurd h1 (by decide)
      rcases List.mem_append.mp h1 with h2 | h2
      · rcases mem_doubleQuotes h2 with h3 | h3
        · exact absurd h3 (by decide)
        · rcases hnlv with h4 | h4
          · exact h4 h3
          · rw [h4] at hq; exact absurd hq (by simp)
      · exact absurd (List.mem_singleton.mp h2) (by decide)
  | false =>
    rw [escapeVal_of_not_quote v hq]
    cases v with
    | null =>
      rw [jsStringOf]
      refine ⟨by simp, ?_, ?_, by decide⟩
      · intro c hc
        rw [show ("null".toList).head? = some 'n' from rfl, Option.some.injEq] at hc
        rw [← hc]; decide
      · intro c hc
        rw [show ("null".toList).getLast? = some 'l' from rfl, Option.some.injEq] at hc
        rw [← hc]; exact ⟨by decide, by decide⟩
    | bool b =>
      cases b with
      | true =>
        rw [jsStringOf]
        refine ⟨by simp, ?_, ?_, by decide⟩
        · intro c hc
          rw [show ("true".toList).head? = some 't' from rfl, Option.some.injEq] at hc
          rw [← hc]; decide
        · intro c hc
          rw [show ("true".toList).getLast? = some 'e' from rfl, Option.some.injEq] at hc
          rw [← hc]; exact ⟨by decide, by decide⟩
      | false =>
        rw [jsStringOf]
        refine ⟨by simp, ?_, ?_, by decide⟩
        · intro c hc
          rw [show ("false".toList).head? = some 'f' from rfl, Option.some.injEq] at hc
          rw [← hc]; decide
        · intro c hc
          rw [show ("false".toList).getLast? = some 'e' from rfl, Option.some.injEq] at hc
          rw [← hc]; exact ⟨by decide, by decide⟩
    | num q =>
      simp only [goodScalarB, Bool.and_eq_true, beq_iff_eq, decide_eq_true_eq] at h
      rw [jsStringOf, numToChars, if_pos h.1]
      refine ⟨intToChars_ne_nil _, ?_, ?_, ?_⟩
      · intro c hc
        rcases intToChars_chars _ _ (List.mem_of_mem_head? hc) with h1 | h1
        · rw [h1]; decide
        · exact digit_not_ws h1
      · intro c hc
        rcases intToChars_chars _ _ (List.mem_of_mem_getLast? hc) with h1 | h1
        · rw [h1]; exact ⟨by decide, by decide⟩
        · refine ⟨digit_not_ws h1, ?_⟩
          intro he; rw [he] at h1; exact absurd h1 (by decide)
      · intro hm
        rcases intToChars_chars _ _ hm with h1 | h1
        · exact absurd h1 (by decide)
        · exact absurd h1 (by decide)
    | str s =>
      have hg : goodStrB s = true := by simpa [goodScalarB] using h
      obtain ⟨hne, hd, hr, hnl⟩ := goodStr_facts hg
      rw [jsStringOf] at hq ⊢
      obtain ⟨-, -, hc3, -, -, -⟩ := needsQuote_elim hq
      refine ⟨hne, ?_, ?_, hnl⟩
      · exact fun c hc => head?_not_ws_of_drop_fix hd hc
      · intro c hc
        refine ⟨getLast?_not_ws_of_rdrop_fix hr hc, ?_⟩
        intro he
        rw [he] at hc
        exact absurd (List.mem_of_mem_getLast? (by simp [hc])) (not_mem_of_contains_false hc3)
    | arr xs => simp [goodScalarB] at h
    | obj es => simp [goodScalarB] at h

/-! ## C1: the root round trip -/
theorem head?_append_left_ne {l : LC} (m : LC) (h : l ≠ []) : (l ++ m).head? = l.head? := by
  cases l with
  | nil => exact absurd rfl h
  | cons c t => simp

theorem getLast?_append_right_ne (l : LC) {m : LC} (h : m ≠ []) :
    (l ++ m).getLast? = m.getLast? := by
  rw [List.getLast?_append]
  cases hm : m.getLast? with
  | none => exact absurd (List.getLast?_eq_none_iff.mp hm) h
  | some c => rfl

theorem intercalate_ne_nil (sep : LC) {l : LC} (ls : List LC) (h : l ≠ []) :
    List.intercalate sep (l :: ls) ≠ [] := by
  cases ls with
  | nil => rw [intercalate_singleton]; exact h
  | cons l2 ls' =>
    rw [intercalate_cons_ne _ _ _ (by simp)]
    intro he
    rw [List.append_assoc] at he
    exact h (List.append_eq_nil.mp he).1

theorem head?_intercalate {sep l : LC} (ls : List LC) (h : l ≠ []) :
    (List.intercalate sep (l :: ls)).head? = l.head? := by
  cases ls with
  | nil => rw [intercalate_singleton]
  | cons l2 ls' =>
    rw [intercalate_cons_ne _ _ _ (by simp), List.append_assoc]
    exact head?_append_left_ne _ h

theorem getLast?_intercalate_mem (sep : LC) :
    ∀ (ls : List LC) (l : LC), (∀ x ∈ l :: ls, x ≠ []) →
      ∃ lst ∈ l :: ls, (List.intercalate sep (l :: ls)).getLast? = lst.getLast? := by
  intro ls
  induction ls with
  | nil =>
    intro l _
    exact ⟨l, by simp, by rw [intercalate_singleton]⟩
  | cons l2 ls' ih =>
    intro l hall
    obtain ⟨lst, hm, he⟩ := ih l2 (fun x hx => hall x (List.mem_cons_of_mem l hx))
    refine ⟨lst, List.mem_cons_of_mem l hm, ?_⟩
    rw [intercalate_cons_ne _ _ _ (by simp), List.append_assoc,
      getLast?_append_right_ne _ ?hne, getLast?_append_right_ne _ ?hne2, he]
    case hne2 => exact intercalate_ne_nil sep ls' (hall l2 (by simp))
    case hne =>
      intro hcon
      exact intercalate_ne_nil sep ls' (hall l2 (by simp)) (List.append_eq_nil.mp hcon).2

theorem takeWhile_append_stop {p : Char → Bool} {a : LC} (c : Char) (u : LC)
    (ha : ∀ x ∈ a, p x = true) (hc : p c = false) :
    (a ++ c :: u).takeWhile p = a := by
  induction a with
  | nil =>
    rw [List.nil_append]
    exact List.takeWhile_cons_of_neg (by simp [hc])
  | cons x t ih =>
    rw [List.cons_append, List.takeWhile_cons_of_pos (ha x (by simp))]
    rw [ih (fun y hy => ha y (by simp [hy]))]

theorem keyValMatch_pos (k e : LC) (hk : k ≠ []) (hw : k.all wordChar = true)
    (hh : ∀ c, e.head? = some c → isJsWs c = false) :
    keyValMatch (k ++ ':' :: ' ' :: e) = some (k, e) := by
  rw [keyValMatch]
  rw [takeWhile_append_stop ':' (' ' :: e) (fun x hx => List.all_eq_true.mp hw x hx) (by decide)]
  rw [if_neg hk, List.drop_left]
  have hdw : e.dropWhile isJsWs = e := by
    rw [List.dropWhile_eq_self_iff]
    intro hl
    have hne : e ≠ [] := List.length_pos.mp hl
    have := hh (e.head hne) (List.head?_eq_head hne)
    rw [List.head_eq_getElem_zero hne] at this
    simp only [List.get_eq_getElem]
    simp [this]
  simp only [List.dropWhile_cons, show isJsWs ' ' = true from rfl, if_pos]
  rw [hdw]

theorem tableStartMatch_header (nn : LC) (hh : LC) (hne : hh ≠ [])
    (hnd : nn ≠ []) (hdig : nn.all Char.isDigit = true) :
    tableStartMatch ("table".toList ++ '[' :: (nn ++ ']' :: '{' :: (hh ++ "\x7d:".toList))) =
      some hh := by
  rw [tableStartMatch]
  rw [takeWhile_append_stop '[' _ (by decide) (by decide)]
  rw [if_neg (by decide), List.drop_left]
  dsimp only
  split
  next r2 heq =>
    obtain rfl : nn ++ ']' :: '{' :: (hh ++ "\x7d:".toList) = r2 := by
      injection heq
    rw [takeWhile_append_stop ']' _ (fun x hx => List.all_eq_true.mp hdig x hx) (by decide)]
    rw [if_neg hnd, List.drop_left]
    split
    next r3 heq2 =>
      obtain rfl : hh ++ "\x7d:".toList = r3 := by
        injection heq2 with h1 h2
        injection h2
      have hlen : (hh ++ "\x7d:".toList).length = hh.length + 2 := by
        rw [List.length_append]; rfl
      rw [if_pos ?hcond]
      case hcond =>
        constructor
        · rw [hlen]
          have : 1 ≤ hh.length := List.length_pos.mpr hne
          omega
        · rw [hlen]
          rw [show hh.length + 2 - 2 = hh.length from by omega]
          exact List.drop_left hh _
      rw [hlen, show hh.length + 2 - 2 = hh.length from by omega]
      rw [List.take_left hh _]
    next h2' =>
      exact ((h2' _ rfl).elim : _)
  next h' =>
    exact ((h' _ rfl).elim : _)

theorem wordChar_not_ws {c : Char} (h : wordChar c = true) : isJsWs c = false := by
  cases hw : isJsWs c with
  | false => rfl
  | true =>
    exfalso
    rw [isJsWs] at hw
    simp only [Bool.or_eq_true, decide_eq_true_eq] at hw
    rcases hw with ((((((rfl|rfl)|rfl)|rfl)|rfl)|rfl)|rfl)|rfl <;>
      exact absurd h (by decide)

theorem jsTrim_eq_self_of {s : LC}
    (hhd : ∀ c, s.head? = some c → isJsWs c = false)
    (hlast : ∀ c, s.getLast? = some c → isJsWs c = false) : jsTrim s = s := by
  have h1 : jsTrimStart s = s := by
    rw [jsTrimStart_eq_drop, List.dropWhile_eq_self_iff]
    intro hl
    have hne : s ≠ [] := List.length_pos.mp hl
    have := hhd (s.head hne) (List.head?_eq_head hne)
    rw [List.head_eq_getElem_zero hne] at this
    simp only [List.get_eq_getElem]
    simp [this]
  have h2 : jsTrimEnd s = s := by
    rw [jsTrimEnd_eq_rdrop, List.rdropWhile_eq_self_iff]
    intro hne
    have := hlast (s.getLast hne) (List.getLast?_eq_getLast s hne)
    simp [this]
  rw [jsTrim, h1, h2]

theorem mem_intercalate {c : Char} (sep : LC) :
    ∀ (ls : List LC), c ∈ List.intercalate sep ls → (∃ l ∈ ls, c ∈ l) ∨ c ∈ sep := by
  intro ls
  induction ls with
  | nil => intro h; simp [List.intercalate] at h
  | cons a rest ih =>
    intro h
    cases rest with
    | nil =>
      rw [intercalate_singleton] at h
      exact Or.inl ⟨a, by simp, h⟩
    | cons b t =>
      rw [intercalate_cons_ne _ _ _ (by simp)] at h
      rcases List.mem_append.mp h with h1 | h2
      · rcases List.mem_append.mp h1 with ha | hs
        · exact Or.inl ⟨a, by simp, ha⟩
        · exact Or.inr hs
      · rcases ih h2 with ⟨l, hl, hcl⟩ | hs
        · exact Or.inl ⟨l, by simp [hl], hcl⟩
        · exact Or.inr hs

theorem escapeVal_raw_or_quoted (v : Value) (h : goodScalarB v = true) :
    (escapeVal v).head? = some '"' ∨
      (',' ∉ escapeVal v ∧ ':' ∉ escapeVal v) := by
  cases hn : isNullV v with
  | true =>
    have : v = .null := by cases v <;> simp_all [isNullV]
    subst this
    right
    rw [escapeVal]
    exact ⟨by decide, by decide⟩
  | false =>
    cases hq : needsQuote (jsStringOf v) with
    | true =>
      left
      rw [escapeVal_of_quote v hn hq]
      rfl
    | false =>
      right
      rw [escapeVal_of_not_quote v hq]
      rw [needsQuote] at hq
      simp only [Bool.or_eq_false_iff, decide_eq_false_iff_not] at hq
      exact ⟨not_mem_of_contains_false hq.1.1.1.1.1,
        not_mem_of_contains_false hq.1.1.1.2⟩

theorem tableStartMatch_getLast {content h' : LC}
    (h : tableStartMatch content = some h') : content.getLast? = some ':' := by
  obtain ⟨w, d, r3, hc, -, -, -, -, hlen, hdrop, -⟩ := tableStartMatch_some h
  have hr3 : r3 = r3.take (r3.length - 2) ++ "\x7d:".toList := by
    conv_lhs => rw [← List.take_append_drop (r3.length - 2) r3]
    rw [hdrop]
  have hce : content =
      (w ++ '[' :: (d ++ ']' :: '{' :: (r3.take (r3.length - 2) ++ ['\x7d']))) ++ [':'] := by
    rw [hc]
    conv_lhs => rw [hr3]
    simp
  rw [hce, List.getLast?_concat]

theorem keyValMatch_row (v : Value) (tail : LC) (hv : goodScalarB v = true)
    (htail : tail = [] ∨ ∃ t2, tail = ',' :: t2) :
    keyValMatch (escapeVal v ++ tail) = none := by
  cases hm : keyValMatch (escapeVal v ++ tail) with
  | none => rfl
  | some p =>
    exfalso
    obtain ⟨k', v'⟩ := p
    obtain ⟨rest, he, hkne, hall, -⟩ := keyValMatch_some hm
    rcases escapeVal_raw_or_quoted v hv with hq | ⟨hcm, hcl⟩
    · obtain ⟨c, t, rfl⟩ := List.exists_cons_of_ne_nil hkne
      have hnev : escapeVal v ≠ [] := (escapeVal_good_facts v hv).1
      have hh : (escapeVal v ++ tail).head? = some '"' := by
        rw [head?_append_left_ne _ hnev, hq]
      rw [he] at hh
      simp only [List.cons_append, List.head?_cons, Option.some.injEq] at hh
      have := List.all_eq_true.mp hall c (by simp)
      rw [hh] at this
      exact absurd this (by decide)
    · rcases htail with rfl | ⟨t2, rfl⟩
      · rw [List.append_nil] at he
        exact hcl (he ▸ List.mem_append_right k' (List.mem_cons_self ':' rest))
      · obtain ⟨-, hxy, -⟩ := append_sep_eq he
          (nonword_not_mem hall (by decide)) hcl
        exact absurd hxy (by decide)

theorem arrayStartMatch_row (v : Value) (tail : LC) (hv : goodScalarB v = true)
    (htail : tail = [] ∨ ∃ t2, tail = ',' :: t2) :
    arrayStartMatch (escapeVal v ++ tail) = none := by
  cases hm : arrayStartMatch (escapeVal v ++ tail) with
  | none => rfl
  | some cells =>
    exfalso
    obtain ⟨a, rest, he, -, hcma, -, hcla, -, hhd⟩ := arrayStartMatch_some hm
    rcases escapeVal_raw_or_quoted v hv with hq | ⟨hcm, hcl⟩
    · have hnev : escapeVal v ≠ [] := (escapeVal_good_facts v hv).1
      have hh : (escapeVal v ++ tail).head? = some '"' := by
        rw [head?_append_left_ne _ hnev, hq]
      rw [he] at hh
      rcases hhd with hh2 | ⟨c, hh2, hw⟩
      · have hane : a ≠ [] := by
          intro hz; rw [hz] at hh2; exact absurd hh2 (by simp)
        rw [head?_append_left_ne _ hane, hh2] at hh
        exact absurd hh (by decide)
      · have hane : a ≠ [] := by
          intro hz; rw [hz] at hh2; exact absurd hh2 (by simp)
        rw [head?_append_left_ne _ hane, hh2] at hh
        rw [Option.some.injEq] at hh
        rw [hh] at hw
        exact absurd hw (by decide)
    · rcases htail with rfl | ⟨t2, rfl⟩
      · rw [List.append_nil] at he
        exact hcl (he ▸ List.mem_append_right a (List.mem_cons_self ':' rest))
      · obtain ⟨-, hxy, -⟩ := append_sep_eq he hcma hcl
        exact absurd hxy (by decide)

theorem typeof_scalar {v : Value} (h : goodScalarB v = true) :
    (typeofObject v && !isNullV v) = false := by
  cases v <;> simp_all [typeofObject, isNullV, goodScalarB]

theorem encodeObjEntries_scalars (es : List (LC × Value))
    (h : ∀ e ∈ es, goodScalarB e.2 = true) :
    encodeObjEntries es 0 none [] =
      es.map fun e => e.1 ++ ':' :: ' ' :: escapeVal e.2 := by
  induction es with
  | nil => rw [encodeObjEntries]; rfl
  | cons e es' ih =>
    obtain ⟨k, v⟩ := e
    rw [encodeObjEntries]
    rw [if_neg (by rw [typeof_scalar (h (k, v) (by simp))]; exact Bool.false_ne_true)]
    rw [ih (fun x hx => h x (by simp [hx]))]
    simp

theorem encode_flat_obj (es : List (LC × Value)) (hne : es.isEmpty = false)
    (h : ∀ e ∈ es, goodScalarB e.2 = true) :
    encode (.obj es) 0 none =
      List.intercalate ['\n'] (es.map fun e => e.1 ++ ':' :: ' ' :: escapeVal e.2) := by
  rw [encode]
  simp only [Nat.mul_zero, List.replicate_zero]
  rw [encodeObjEntries_scalars es h]
  simp [hne]

theorem goodTable_uniform {x : Value} {rest : List Value}
    (hg : GoodTable (.arr (x :: rest))) : isUniformArray (x :: rest) = true := by
  obtain ⟨hkne, -, -, hitems⟩ := hg
  rw [isUniformArray]
  have hox : isObjV x = true := (hitems x (by simp)).1
  rw [hox]
  simp only [Bool.not_true, Bool.false_eq_true, if_false]
  rw [if_neg hkne]
  rw [List.all_eq_true]
  intro item hitem
  obtain ⟨ho, hkeq, -⟩ := hitems item hitem
  rw [ho, hkeq]
  simp

theorem encode_table (x : Value) (rest : List Value)
    (hu : isUniformArray (x :: rest) = true)
    (hnp : ((x :: rest).all fun i => !typeofObject i) = false) :
    encode (.arr (x :: rest)) 0 none =
      ("table[".toList ++ natToChars (x :: rest).length ++
        ']' :: '{' :: (List.intercalate [','] (objKeys x) ++ "\x7d:".toList)) ++
      '\n' :: List.intercalate ['\n'] ((x :: rest).map fun item =>
        ' ' :: ' ' :: List.intercalate [','] ((objKeys x).map fun k2 =>
          escapeVal (objGetD item k2))) := by
  rw [encode]
  rw [hnp, hu]
  simp

theorem dropWhile_eq_self_of_head {r : LC}
    (hhd : ∀ c, r.head? = some c → isJsWs c = false) :
    r.dropWhile isJsWs = r := by
  rw [List.dropWhile_eq_self_iff]
  intro hl
  have hne : r ≠ [] := List.length_pos.mp hl
  have := hhd (r.head hne) (List.head?_eq_head hne)
  rw [List.head_eq_getElem_zero hne] at this
  simp only [List.get_eq_getElem]
  simp [this]

theorem rdropWhile_eq_self_of_last {r : LC}
    (hlast : ∀ c, r.getLast? = some c → isJsWs c = false) :
    r.rdropWhile isJsWs = r := by
  rw [List.rdropWhile_eq_self_iff]
  intro hne
  have := hlast (r.getLast hne) (List.getLast?_eq_getLast r hne)
  simp [this]

theorem takeWhile_ws_eq_nil_of_head {r : LC}
    (hhd : ∀ c, r.head? = some c → isJsWs c = false) :
    r.takeWhile isJsWs = [] := by
  cases r with
  | nil => rfl
  | cons c t => exact List.takeWhile_cons_of_neg (by simp [hhd c rfl])

theorem dropWhile_append_all {p : Char → Bool} :
    ∀ (a : LC), (∀ c ∈ a, p c = true) → ∀ (r : LC),
      (a ++ r).dropWhile p = r.dropWhile p := by
  intro a
  induction a with
  | nil => intro _ r; rfl
  | cons c t ih =>
    intro ha r
    rw [List.cons_append, List.dropWhile_cons_of_pos (ha c (by simp))]
    exact ih (fun x hx => ha x (by simp [hx])) r

theorem jsTrim_ws_pre (a r : LC) (ha : ∀ c ∈ a, isJsWs c = true)
    (hhd : ∀ c, r.head? = some c → isJsWs c = false)
    (hlast : ∀ c, r.getLast? = some c → isJsWs c = false) :
    jsTrim (a ++ r) = r := by
  rw [jsTrim, jsTrimStart_eq_drop, dropWhile_append_all a ha r,
    dropWhile_eq_self_of_head hhd, jsTrimEnd_eq_rdrop,
    rdropWhile_eq_self_of_last hlast]

theorem enumFrom_map_getD (f : LC → Value) (big : List Value) :
    ∀ (hs : List LC) (n : Nat), big.drop n = hs.map f →
      (List.enumFrom n hs).map (fun hi => (hi.2, big.getD hi.1 .null)) =
        hs.map fun k => (k, f k) := by
  intro hs
  induction hs with
  | nil => intro n _; rfl
  | cons k hs' ih =>
    intro n hdrop
    rw [List.enumFrom_cons, List.map_cons, List.map_cons]
    congr 1
    · have hv : big.getD n .null = f k := by
        have h1 : (big.drop n).head? = some (f k) := by rw [hdrop]; rfl
        rw [List.head?_drop] at h1
        rw [List.getD_eq_getElem?_getD, h1]
        rfl
      rw [hv]
    · apply ih (n + 1)
      have h2 : big.drop (n + 1) = (big.drop n).drop 1 := by
        rw [List.drop_drop, Nat.add_comm]
      rw [h2, hdrop]
      rfl

theorem specZipRow_map (headers : List LC) (f : LC → Value) :
    specZipRow headers (headers.map f) = .obj (headers.map fun k => (k, f k)) := by
  rw [specZipRow]
  congr 1
  exact enumFrom_map_getD f (headers.map f) headers 0 rfl

theorem entsGet_good :
    ∀ (es : List (LC × Value)) (k : LC), k ∈ es.map Prod.fst →
      (∀ e ∈ es, goodScalarB e.2 = true) →
      goodScalarB ((entsGet es k).getD .null) = true := by
  intro es
  induction es with
  | nil => intro k hk _; simp at hk
  | cons e es' ih =>
    intro k hk hg
    obtain ⟨k0, v0⟩ := e
    rw [entsGet]
    by_cases h0 : k0 = k
    · rw [if_pos h0]
      simpa using hg (k0, v0) (by simp)
    · rw [if_neg h0]
      apply ih k ?_ (fun e he => hg e (by simp [he]))
      simp only [List.map_cons, List.mem_cons] at hk
      rcases hk with h | h
      · exact absurd h.symm h0
      · exact h

theorem isObjV_elim {v : Value} (h : isObjV v = true) : ∃ es, v = .obj es := by
  cases v with
  | obj es => exact ⟨es, rfl⟩
  | null => exact Bool.noConfusion h
  | bool b => exact Bool.noConfusion h
  | num q => exact Bool.noConfusion h
  | str s => exact Bool.noConfusion h
  | arr xs => exact Bool.noConfusion h

theorem map_objGetD_self :
    ∀ (es : List (LC × Value)), (es.map Prod.fst).Nodup →
      (es.map Prod.fst).map (fun k => (k, objGetD (.obj es) k)) = es := by
  intro es
  induction es with
  | nil => intro _; rfl
  | cons e es' ih =>
    intro hnd
    obtain ⟨k0, v0⟩ := e
    simp only [List.map_cons, List.nodup_cons] at hnd
    rw [List.map_cons, List.map_cons]
    congr 1
    · simp only [objGetD, entsGet, if_pos rfl]
      rfl
    · conv_rhs => rw [← ih hnd.2]
      apply List.map_congr_left
      intro k hk
      have hne : ¬k0 = k := fun he => hnd.1 (he ▸ hk)
      simp only [objGetD, entsGet, if_neg hne]

theorem goodKey_facts {k : LC} (h : goodKeyB k = true) :
    k ≠ [] ∧ k.all wordChar = true := by
  simp only [goodKeyB, Bool.and_eq_true, Bool.not_eq_true'] at h
  refine ⟨?_, h.2⟩
  intro he
  rw [he] at h
  exact absurd h.1 (by decide)

theorem entry_line_facts (k : LC) (v : Value) (hk : goodKeyB k = true)
    (hv : goodScalarB v = true) :
    jsTrim (k ++ ':' :: ' ' :: escapeVal v) = k ++ ':' :: ' ' :: escapeVal v ∧
      (k ++ ':' :: ' ' :: escapeVal v) ≠ [] ∧
      '\n' ∉ (k ++ ':' :: ' ' :: escapeVal v) := by
  obtain ⟨hkne, hkw⟩ := goodKey_facts hk
  obtain ⟨hene, hehd, helast, henl⟩ := escapeVal_good_facts v hv
  refine ⟨?_, ?_, ?_⟩
  · apply jsTrim_eq_self_of
    · intro c hc
      rw [head?_append_left_ne _ hkne] at hc
      obtain ⟨c0, t0, rfl⟩ := List.exists_cons_of_ne_nil hkne
      rw [List.head?_cons, Option.some.injEq] at hc
      rw [← hc]
      exact wordChar_not_ws (List.all_eq_true.mp hkw c0 (by simp))
    · intro c hc
      rw [getLast?_append_right_ne _ (by simp)] at hc
      rw [show (':' :: ' ' :: escapeVal v : LC) = [':', ' '] ++ escapeVal v from rfl,
        getLast?_append_right_ne _ hene] at hc
      exact (helast c hc).1
  · intro he
    rw [List.append_eq_nil] at he
    exact absurd he.2 (by simp)
  · intro hm
    rcases List.mem_append.mp hm with h1 | h2
    · exact absurd (List.all_eq_true.mp hkw _ h1) (by decide)
    · simp only [List.mem_cons] at h2
      rcases h2 with h | h | h
      · exact absurd h (by decide)
      · exact absurd h (by decide)
      · exact henl h

theorem processLine_entry (st : DecState) (k : LC) (v : Value) (hst : st.stack = [])
    (hk : goodKeyB k = true) (hv : goodScalarB v = true) :
    processLine st (k ++ ':' :: ' ' :: escapeVal v) =
      { st with root := some (match st.root.getD (.obj []) with
          | .obj es => .obj (objSet es k v)
          | r => r) } := by
  obtain ⟨hkne, hkw⟩ := goodKey_facts hk
  obtain ⟨hene, hehd, -, -⟩ := escapeVal_good_facts v hv
  have hjt := (entry_line_facts k v hk hv).1
  have hsh : (k ++ ':' :: ' ' :: escapeVal v : LC) = k ++ ':' :: (' ' :: escapeVal v) := rfl
  have ht : tableStartMatch (jsTrim (k ++ ':' :: ' ' :: escapeVal v)) = none := by
    rw [hjt, hsh]
    exact tableStartMatch_none_key (nonword_not_mem hkw (by decide))
      (nonword_not_mem hkw (by decide))
  have ha : arrayStartMatch (jsTrim (k ++ ':' :: ' ' :: escapeVal v)) = none := by
    rw [hjt, hsh]
    exact arrayStartMatch_none_key (nonword_not_mem hkw (by decide))
      (nonword_not_mem hkw (by decide))
  have hkv : keyValMatch (jsTrim (k ++ ':' :: ' ' :: escapeVal v)) = some (k, escapeVal v) := by
    rw [hjt]
    exact keyValMatch_pos k (escapeVal v) hkne hkw hehd
  have hd : ¬(jsTrim (k ++ ':' :: ' ' :: escapeVal v)).head? = some '-' := by
    rw [hjt, head?_append_left_ne _ hkne]
    obtain ⟨c0, t0, rfl⟩ := List.exists_cons_of_ne_nil hkne
    rw [List.head?_cons]
    intro hc
    rw [Option.some.injEq] at hc
    have := List.all_eq_true.mp hkw c0 (by simp)
    rw [hc] at this
    exact absurd this (by decide)
  rw [processLine_keyval_prim st _ k (escapeVal v) ht ha hkv hd hene hst]
  rw [parseValue_escapeVal v hv]

theorem cells_line_facts (vs : List Value) (hne : vs ≠ [])
    (hg : ∀ v ∈ vs, goodScalarB v = true) :
    List.intercalate [','] (vs.map escapeVal) ≠ [] ∧
      (∀ c, (List.intercalate [','] (vs.map escapeVal)).head? = some c →
        isJsWs c = false) ∧
      (∀ c, (List.intercalate [','] (vs.map escapeVal)).getLast? = some c →
        isJsWs c = false ∧ c ≠ ':') ∧
      '\n' ∉ List.intercalate [','] (vs.map escapeVal) ∧
      tableStartMatch (List.intercalate [','] (vs.map escapeVal)) = none ∧
      arrayStartMatch (List.intercalate [','] (vs.map escapeVal)) = none ∧
      keyValMatch (List.intercalate [','] (vs.map escapeVal)) = none := by
  obtain ⟨v, vs', rfl⟩ : ∃ v vs', vs = v :: vs' := by
    cases vs with
    | nil => exact absurd rfl hne
    | cons a b => exact ⟨a, b, rfl⟩
  have hgv : goodScalarB v = true := hg v (by simp)
  have hvne : escapeVal v ≠ [] := (escapeVal_good_facts v hgv).1
  obtain ⟨tail, hsplit, htail⟩ :
      ∃ tail, List.intercalate [','] ((v :: vs').map escapeVal) = escapeVal v ++ tail ∧
        (tail = [] ∨ ∃ t2, tail = ',' :: t2) := by
    cases vs' with
    | nil =>
      exact ⟨[], by rw [List.map_cons, List.map_nil, intercalate_singleton,
        List.append_nil], Or.inl rfl⟩
    | cons w ws =>
      refine ⟨',' :: List.intercalate [','] ((w :: ws).map escapeVal), ?_, Or.inr ⟨_, rfl⟩⟩
      rw [List.map_cons, intercalate_cons_ne _ _ _ (by simp)]
      simp
  have hgl : ∀ c, (List.intercalate [','] ((v :: vs').map escapeVal)).getLast? = some c →
      isJsWs c = false ∧ c ≠ ':' := by
    intro c hc
    have hallne : ∀ x ∈ escapeVal v :: vs'.map escapeVal, x ≠ [] := by
      intro x hx
      rw [← List.map_cons] at hx
      obtain ⟨u, hu, rfl⟩ := List.mem_map.mp hx
      exact (escapeVal_good_facts u (hg u hu)).1
    obtain ⟨cell, hcm, hceq⟩ := getLast?_intercalate_mem [','] (vs'.map escapeVal)
      (escapeVal v) hallne
    rw [← List.map_cons] at hcm
    obtain ⟨u, hu, rfl⟩ := List.mem_map.mp hcm
    rw [List.map_cons, hceq] at hc
    exact (escapeVal_good_facts u (hg u hu)).2.2.1 c hc
  refine ⟨?_, ?_, hgl, ?_, ?_, ?_, ?_⟩
  · rw [hsplit]
    intro he
    exact hvne (List.append_eq_nil.mp he).1
  · intro c hc
    rw [hsplit, head?_append_left_ne _ hvne] at hc
    exact (escapeVal_good_facts v hgv).2.1 c hc
  · intro hm
    rcases mem_intercalate [','] _ hm with ⟨l, hl, hcl⟩ | hs
    · obtain ⟨u, hu, rfl⟩ := List.mem_map.mp hl
      exact (escapeVal_good_facts u (hg u hu)).2.2.2 hcl
    · simp at hs
  · cases hmm : tableStartMatch (List.intercalate [','] ((v :: vs').map escapeVal)) with
    | none => rfl
    | some h' => exact absurd rfl (hgl ':' (tableStartMatch_getLast hmm)).2
  · rw [hsplit]
    exact arrayStartMatch_row v tail hgv htail
  · rw [hsplit]
    exact keyValMatch_row v tail hgv htail

theorem processLine_row_good (done : List Value) (keys : List LC) (vs : List Value)
    (hne : vs ≠ []) (hg : ∀ v ∈ vs, goodScalarB v = true) :
    processLine (⟨some (.arr done), [⟨.rooted [], .kTable, 0, none, keys⟩]⟩ : DecState)
      (' ' :: ' ' :: List.intercalate [','] (vs.map escapeVal)) =
    ⟨some (.arr (done ++ [buildRow keys vs])),
      [⟨.rooted [], .kTable, 0, none, keys⟩]⟩ := by
  obtain ⟨hrne, hhd, hlast, -, ht, ha, hk⟩ := cells_line_facts vs hne hg
  have hjt : jsTrim (' ' :: ' ' :: List.intercalate [','] (vs.map escapeVal)) =
      List.intercalate [','] (vs.map escapeVal) := by
    rw [show (' ' :: ' ' :: List.intercalate [','] (vs.map escapeVal) : LC) =
      [' ', ' '] ++ List.intercalate [','] (vs.map escapeVal) from rfl]
    exact jsTrim_ws_pre _ _
      (by decide : ∀ c ∈ ([' ', ' '] : LC), isJsWs c = true) hhd
      (fun c hc => (hlast c hc).1)
  have hind : ((' ' :: ' ' :: List.intercalate [','] (vs.map escapeVal)).takeWhile
      isJsWs).length = 2 := by
    rw [List.takeWhile_cons_of_pos (by decide), List.takeWhile_cons_of_pos (by decide),
      takeWhile_ws_eq_nil_of_head hhd]
    rfl
  rw [processLine_row _ _ (by rw [hjt]; exact ht) (by rw [hjt]; exact ha)
    (by rw [hjt]; exact hk) ⟨.rooted [], .kTable, 0, none, keys⟩ []
    (by rw [hind]; rfl) rfl]
  rw [hjt, parseCSV_cells vs hg hne]
  rfl

theorem all_not_mem {p : Char → Bool} {l : LC} (hall : l.all p = true) {c : Char}
    (hc : p c = false) : c ∉ l := by
  intro hm
  rw [List.all_eq_true.mp hall c hm] at hc
  exact absurd hc (by simp)

theorem goodTableKey_facts {k : LC} (h : goodTableKeyB k = true) :
    k ≠ [] ∧ ',' ∉ k ∧ '\n' ∉ k := by
  simp only [goodTableKeyB, Bool.and_eq_true, Bool.not_eq_true'] at h
  refine ⟨?_, not_mem_of_contains_false h.1.2, not_mem_of_contains_false h.2⟩
  intro he
  rw [he] at h
  exact absurd h.1.1 (by decide)

theorem entry_line_ne (k : LC) (v : Value) : (k ++ ':' :: ' ' :: escapeVal v) ≠ [] := by
  intro he
  rw [List.append_eq_nil] at he
  exact absurd he.2 (by simp)

theorem entry_line_head (k : LC) (v : Value) (hk : goodKeyB k = true) :
    ∀ c, (k ++ ':' :: ' ' :: escapeVal v).head? = some c → isJsWs c = false := by
  obtain ⟨hkne, hkw⟩ := goodKey_facts hk
  intro c hc
  rw [head?_append_left_ne _ hkne] at hc
  obtain ⟨c0, t0, rfl⟩ := List.exists_cons_of_ne_nil hkne
  rw [List.head?_cons, Option.some.injEq] at hc
  rw [← hc]
  exact wordChar_not_ws (List.all_eq_true.mp hkw c0 (by simp))

theorem entry_line_last (k : LC) (v : Value) (hv : goodScalarB v = true) :
    ∀ c, (k ++ ':' :: ' ' :: escapeVal v).getLast? = some c → isJsWs c = false := by
  obtain ⟨hene, -, helast, -⟩ := escapeVal_good_facts v hv
  intro c hc
  rw [getLast?_append_right_ne _ (by simp)] at hc
  rw [show (':' :: ' ' :: escapeVal v : LC) = [':', ' '] ++ escapeVal v from rfl,
    getLast?_append_right_ne _ hene] at hc
  exact (helast c hc).1

theorem row_line_trim (vs : List Value) (hne : vs ≠ [])
    (hg : ∀ v ∈ vs, goodScalarB v = true) :
    jsTrim (' ' :: ' ' :: List.intercalate [','] (vs.map escapeVal)) =
      List.intercalate [','] (vs.map escapeVal) := by
  obtain ⟨-, hhd, hlast, -, -, -, -⟩ := cells_line_facts vs hne hg
  rw [show (' ' :: ' ' :: List.intercalate [','] (vs.map escapeVal) : LC) =
    [' ', ' '] ++ List.intercalate [','] (vs.map escapeVal) from rfl]
  exact jsTrim_ws_pre _ _
    (by decide : ∀ c ∈ ([' ', ' '] : LC), isJsWs c = true) hhd
    (fun c hc => (hlast c hc).1)

theorem decode_obj_lines :
    ∀ (es done : List (LC × Value)),
      (∀ e ∈ es, goodKeyB e.1 = true ∧ goodScalarB e.2 = true) →
      (∀ e ∈ es, e.1 ∉ done.map Prod.fst) →
      (es.map Prod.fst).Nodup →
      List.foldl (fun st l => if jsTrim l = [] then st else processLine st l)
        (⟨some (.obj done), []⟩ : DecState)
        (es.map fun e => e.1 ++ ':' :: ' ' :: escapeVal e.2)
      = ⟨some (.obj (done ++ es)), []⟩ := by
  intro es
  induction es with
  | nil => intro done _ _ _; simp
  | cons e es' ih =>
    obtain ⟨k, v⟩ := e
    intro done hgood hfresh hnd
    have hg := hgood (k, v) (by simp)
    have hline := entry_line_facts k v hg.1 hg.2
    rw [List.map_cons, List.foldl_cons]
    rw [if_neg (by rw [hline.1]; exact hline.2.1)]
    have hstep : processLine (⟨some (.obj done), []⟩ : DecState)
        (k ++ ':' :: ' ' :: escapeVal v) = ⟨some (.obj (objSet done k v)), []⟩ := by
      rw [processLine_entry _ k v rfl hg.1 hg.2]
      rfl
    rw [hstep, objSet_fresh done k v (hfresh (k, v) (by simp))]
    simp only [List.map_cons, List.nodup_cons] at hnd
    rw [ih (done ++ [(k, v)]) (fun e he => hgood e (by simp [he])) ?_ hnd.2]
    · rw [List.append_assoc]
      rfl
    · intro e he
      rw [List.map_append]
      intro hmem
      rcases List.mem_append.mp hmem with h1 | h2
      · exact hfresh e (by simp [he]) h1
      · simp only [List.map_cons, List.map_nil, List.mem_singleton] at h2
        exact hnd.1 (h2 ▸ List.mem_map_of_mem Prod.fst he)

theorem decode_table_rows (keys : List LC) (hkne : keys ≠ []) (hnd : keys.Nodup) :
    ∀ (items : List Value) (done : List Value),
      (∀ item ∈ items, isObjV item = true ∧ objKeys item = keys ∧
        ∀ e ∈ objEnts item, goodScalarB e.2 = true) →
      List.foldl (fun st l => if jsTrim l = [] then st else processLine st l)
        (⟨some (.arr done), [⟨.rooted [], .kTable, 0, none, keys⟩]⟩ : DecState)
        (items.map fun item =>
          ' ' :: ' ' :: List.intercalate [','] (keys.map fun k2 =>
            escapeVal (objGetD item k2)))
      = ⟨some (.arr (done ++ items)), [⟨.rooted [], .kTable, 0, none, keys⟩]⟩ := by
  intro items
  induction items with
  | nil => intro done _; simp
  | cons item items' ih =>
    intro done hgood
    obtain ⟨hobj, hkeq, hents⟩ := hgood item (by simp)
    obtain ⟨es, rfl⟩ := isObjV_elim hobj
    have hvg : ∀ u ∈ keys.map (objGetD (Value.obj es)), goodScalarB u = true := by
      intro u hu
      obtain ⟨k2, hk2, rfl⟩ := List.mem_map.mp hu
      have hk2' : k2 ∈ es.map Prod.fst := by
        rw [show es.map Prod.fst = objKeys (Value.obj es) from rfl, hkeq]
        exact hk2
      exact entsGet_good es k2 hk2' hents
    have hvne : keys.map (objGetD (Value.obj es)) ≠ [] := by
      intro h
      exact hkne (List.map_eq_nil_iff.mp h)
    have hmm : (keys.map fun k2 => escapeVal (objGetD (Value.obj es) k2)) =
        (keys.map (objGetD (Value.obj es))).map escapeVal := by
      rw [List.map_map]
      rfl
    rw [List.map_cons, List.foldl_cons, hmm]
    obtain ⟨hrne, -, -, -, -, -, -⟩ :=
      cells_line_facts (keys.map (objGetD (Value.obj es))) hvne hvg
    rw [if_neg (by rw [row_line_trim _ hvne hvg]; exact hrne)]
    rw [processLine_row_good done keys _ hvne hvg]
    have hrow : buildRow keys (keys.map (objGetD (Value.obj es))) = Value.obj es := by
      rw [buildRow_eq_spec keys _ hnd, specZipRow_map keys (objGetD (Value.obj es))]
      have hes : keys = es.map Prod.fst := by
        rw [← hkeq]
        rfl
      rw [hes, map_objGetD_self es (hes ▸ hnd)]
    rw [hrow]
    rw [ih (done ++ [Value.obj es]) (fun it hit => hgood it (by simp [hit]))]
    rw [List.append_assoc]
    rfl

theorem header_line_facts (n : Nat) (keys : List LC) (hkne : keys ≠ [])
    (hkeys : ∀ k ∈ keys, goodTableKeyB k = true) :
    ("table[".toList ++ natToChars n ++ ']' :: '{' ::
        (List.intercalate [','] keys ++ "\x7d:".toList)) ≠ [] ∧
    jsTrim ("table[".toList ++ natToChars n ++ ']' :: '{' ::
        (List.intercalate [','] keys ++ "\x7d:".toList)) =
      "table[".toList ++ natToChars n ++ ']' :: '{' ::
        (List.intercalate [','] keys ++ "\x7d:".toList) ∧
    '\n' ∉ ("table[".toList ++ natToChars n ++ ']' :: '{' ::
        (List.intercalate [','] keys ++ "\x7d:".toList)) ∧
    tableStartMatch ("table[".toList ++ natToChars n ++ ']' :: '{' ::
        (List.intercalate [','] keys ++ "\x7d:".toList)) =
      some (List.intercalate [','] keys) ∧
    "table".toList.isPrefixOf ("table[".toList ++ natToChars n ++ ']' :: '{' ::
        (List.intercalate [','] keys ++ "\x7d:".toList)) = true ∧
    (("table[".toList ++ natToChars n ++ ']' :: '{' ::
        (List.intercalate [','] keys ++ "\x7d:".toList)).takeWhile isJsWs).length = 0 ∧
    (∀ c, ("table[".toList ++ natToChars n ++ ']' :: '{' ::
        (List.intercalate [','] keys ++ "\x7d:".toList)).getLast? = some c →
      isJsWs c = false) ∧
    (∀ c, ("table[".toList ++ natToChars n ++ ']' :: '{' ::
        (List.intercalate [','] keys ++ "\x7d:".toList)).head? = some c →
      isJsWs c = false) := by
  obtain ⟨k1, krest, rfl⟩ : ∃ k1 krest, keys = k1 :: krest := by
    cases keys with
    | nil => exact absurd rfl hkne
    | cons a b => exact ⟨a, b, rfl⟩
  have hHne : List.intercalate [','] (k1 :: krest) ≠ [] :=
    intercalate_ne_nil [','] krest (goodTableKey_facts (hkeys k1 (by simp))).1
  obtain ⟨hd1, hd2, hd3⟩ := natToChars_spec n
  have hhead : ("table[".toList ++ natToChars n ++ ']' :: '{' ::
      (List.intercalate [','] (k1 :: krest) ++ "\x7d:".toList)).head? = some 't' := by
    rw [List.append_assoc, head?_append_left_ne _ (by decide)]
    rfl
  have hlastc : ("table[".toList ++ natToChars n ++ ']' :: '{' ::
      (List.intercalate [','] (k1 :: krest) ++ "\x7d:".toList)).getLast? = some ':' := by
    rw [show ("table[".toList ++ natToChars n ++ ']' :: '{' ::
        (List.intercalate [','] (k1 :: krest) ++ "\x7d:".toList) : LC) =
      ("table[".toList ++ natToChars n ++ ']' :: '{' ::
        (List.intercalate [','] (k1 :: krest) ++ ['\x7d'])) ++ [':'] from by simp]
    rw [List.getLast?_concat]
  have hheadf : ∀ c, ("table[".toList ++ natToChars n ++ ']' :: '{' ::
      (List.intercalate [','] (k1 :: krest) ++ "\x7d:".toList)).head? = some c →
      isJsWs c = false := by
    intro c hc
    rw [hhead, Option.some.injEq] at hc
    rw [← hc]
    rfl
  have hlastf : ∀ c, ("table[".toList ++ natToChars n ++ ']' :: '{' ::
      (List.intercalate [','] (k1 :: krest) ++ "\x7d:".toList)).getLast? = some c →
      isJsWs c = false := by
    intro c hc
    rw [hlastc, Option.some.injEq] at hc
    rw [← hc]
    rfl
  refine ⟨?_, jsTrim_eq_self_of hheadf hlastf, ?_, ?_, ?_, ?_, hlastf, hheadf⟩
  · intro he
    rw [List.append_assoc, List.append_eq_nil] at he
    exact absurd he.1 (by decide)
  · intro hm
    rw [List.append_assoc] at hm
    rcases List.mem_append.mp hm with h1 | h2
    · exact absurd h1 (by decide)
    · rcases List.mem_append.mp h2 with h3 | h4
      · exact all_not_mem hd1 (by decide) h3
      · simp only [List.mem_cons] at h4
        rcases h4 with h | h | h
        · exact absurd h (by decide)
        · exact absurd h (by decide)
        · rcases List.mem_append.mp h with h5 | h6
          · rcases mem_intercalate [','] _ h5 with ⟨l, hl, hcl⟩ | hs
            · exact (goodTableKey_facts (hkeys l hl)).2.2 hcl
            · simp at hs
          · exact absurd h6 (by decide)
  · exact tableStartMatch_header (natToChars n) _ hHne hd2 hd1
  · rw [ List.isPrefixOf_iff_prefix]
    exact ⟨'[' :: (natToChars n ++ ']' :: '{' ::
      (List.intercalate [','] (k1 :: krest) ++ "\x7d:".toList)), rfl⟩
  · rw [takeWhile_ws_eq_nil_of_head hheadf]
    rfl

theorem roundtrip_flat_obj (es : List (LC × Value)) (hne : es.isEmpty = false)
    (hgood : ∀ e ∈ es, goodKeyB e.1 = true ∧ goodScalarB e.2 = true)
    (hnd : (es.map Prod.fst).Nodup) :
    decodeToon (convertToToon (.obj es)) = .obj es := by
  obtain ⟨e1, rest, rfl⟩ : ∃ e1 rest, es = e1 :: rest := by
    cases es with
    | nil => exact absurd hne (by decide)
    | cons a b => exact ⟨a, b, rfl⟩
  have hg1 := hgood e1 (by simp)
  rw [convertToToon, encode_flat_obj _ hne (fun e he => (hgood e he).2)]
  have hLne : ∀ l ∈ ((e1 :: rest).map fun e => e.1 ++ ':' :: ' ' :: escapeVal e.2),
      l ≠ [] := by
    intro l hl
    obtain ⟨e, he, rfl⟩ := List.mem_map.mp hl
    exact entry_line_ne e.1 e.2
  have hjt : jsTrim (List.intercalate ['\n']
      ((e1 :: rest).map fun e => e.1 ++ ':' :: ' ' :: escapeVal e.2)) =
      List.intercalate ['\n']
        ((e1 :: rest).map fun e => e.1 ++ ':' :: ' ' :: escapeVal e.2) := by
    apply jsTrim_eq_self_of
    · intro c hc
      rw [List.map_cons, head?_intercalate _ (entry_line_ne e1.1 e1.2)] at hc
      exact entry_line_head e1.1 e1.2 hg1.1 c hc
    · intro c hc
      rw [List.map_cons] at hc
      obtain ⟨lst, hm, he⟩ := getLast?_intercalate_mem ['\n']
        (rest.map fun e => e.1 ++ ':' :: ' ' :: escapeVal e.2)
        (e1.1 ++ ':' :: ' ' :: escapeVal e1.2)
        (by
          intro l hl
          rcases List.mem_cons.mp hl with rfl | hl2
          · exact entry_line_ne e1.1 e1.2
          · obtain ⟨e, he2, rfl⟩ := List.mem_map.mp hl2
            exact entry_line_ne e.1 e.2)
      rw [he] at hc
      rcases List.mem_cons.mp hm with rfl | hm2
      · exact entry_line_last e1.1 e1.2 hg1.2 c hc
      · obtain ⟨e, hem, rfl⟩ := List.mem_map.mp hm2
        exact entry_line_last e.1 e.2 (hgood e (by simp [hem])).2 c hc
  rw [hjt, decodeToon]
  rw [List.splitOn_intercalate _ '\n'
    (by
      intro l hl
      obtain ⟨e, he, rfl⟩ := List.mem_map.mp hl
      exact (entry_line_facts e.1 e.2 (hgood e he).1 (hgood e he).2).2.2)
    (by simp)]
  rw [List.map_cons]
  simp only [List.foldl_cons]
  have hfirst : (if jsTrim (e1.1 ++ ':' :: ' ' :: escapeVal e1.2) = []
      then (⟨none, []⟩ : DecState)
      else processLine ⟨none, []⟩ (e1.1 ++ ':' :: ' ' :: escapeVal e1.2)) =
      ⟨some (.obj [(e1.1, e1.2)]), []⟩ := by
    rw [if_neg (by
      rw [(entry_line_facts e1.1 e1.2 hg1.1 hg1.2).1]
      exact entry_line_ne e1.1 e1.2)]
    rw [processLine_entry _ e1.1 e1.2 rfl hg1.1 hg1.2]
    rfl
  rw [hfirst]
  simp only [List.map_cons, List.nodup_cons] at hnd
  rw [decode_obj_lines rest [(e1.1, e1.2)]
    (fun e he => hgood e (by simp [he]))
    (by
      intro e he hmem
      simp only [List.map_cons, List.map_nil, List.mem_singleton] at hmem
      exact hnd.1 (hmem ▸ List.mem_map_of_mem Prod.fst he))
    hnd.2]
  rfl

theorem roundtrip_table (x : Value) (rest : List Value)
    (hg : GoodTable (.arr (x :: rest))) :
    decodeToon (convertToToon (.arr (x :: rest))) = .arr (x :: rest) := by
  obtain ⟨hkne, hknd, hkeys, hitems⟩ := hg
  have hobx : isObjV x = true := (hitems x (by simp)).1
  have hnp : ((x :: rest).all fun i => !typeofObject i) = false := by
    cases hx : (x :: rest).all (fun i => !typeofObject i) with
    | false => rfl
    | true =>
      exfalso
      have hxx := List.all_eq_true.mp hx x (by simp)
      obtain ⟨es, rfl⟩ := isObjV_elim hobx
      exact Bool.noConfusion hxx
  rw [convertToToon, encode_table x rest
    (goodTable_uniform ⟨hkne, hknd, hkeys, hitems⟩) hnp]
  obtain ⟨hne0, hjthd, hnlhd, hts, hpref, hind0, hlastf, hheadf⟩ :=
    header_line_facts (x :: rest).length (objKeys x) hkne hkeys
  have hitemcells : ∀ item ∈ x :: rest,
      (∀ u ∈ (objKeys x).map (objGetD item), goodScalarB u = true) ∧
        (objKeys x).map (objGetD item) ≠ [] := by
    intro item hit
    obtain ⟨ho, hke, hen⟩ := hitems item hit
    obtain ⟨es, rfl⟩ := isObjV_elim ho
    constructor
    · intro u hu
      obtain ⟨k2, hk2, rfl⟩ := List.mem_map.mp hu
      apply entsGet_good es k2 ?_ hen
      rw [show es.map Prod.fst = objKeys (Value.obj es) from rfl, hke]
      exact hk2
    · intro hmape
      exact hkne (List.map_eq_nil_iff.mp hmape)
  have hmm2 : ∀ item : Value, ((objKeys x).map fun k2 => escapeVal (objGetD item k2)) =
      ((objKeys x).map (objGetD item)).map escapeVal := by
    intro item
    rw [List.map_map]
    rfl
  have hrowne : ∀ r ∈ ((x :: rest).map fun item =>
      ' ' :: ' ' :: List.intercalate [','] ((objKeys x).map fun k2 =>
        escapeVal (objGetD item k2))), r ≠ [] := by
    intro r hr
    obtain ⟨item, -, rfl⟩ := List.mem_map.mp hr
    simp
  have hrowlast : ∀ r ∈ ((x :: rest).map fun item =>
      ' ' :: ' ' :: List.intercalate [','] ((objKeys x).map fun k2 =>
        escapeVal (objGetD item k2))), ∀ c, r.getLast? = some c → isJsWs c = false := by
    intro r hr c hc
    obtain ⟨item, hit, rfl⟩ := List.mem_map.mp hr
    obtain ⟨hgood', hne'⟩ := hitemcells item hit
    obtain ⟨hcne, -, hlast', -, -, -, -⟩ := cells_line_facts _ hne' hgood'
    rw [hmm2 item] at hc
    rw [show (' ' :: ' ' :: List.intercalate [',']
        (((objKeys x).map (objGetD item)).map escapeVal) : LC) =
      [' ', ' '] ++ List.intercalate [',']
        (((objKeys x).map (objGetD item)).map escapeVal) from rfl,
      getLast?_append_right_ne _ hcne] at hc
    exact (hlast' c hc).1
  have hrownl : ∀ r ∈ ((x :: rest).map fun item =>
      ' ' :: ' ' :: List.intercalate [','] ((objKeys x).map fun k2 =>
        escapeVal (objGetD item k2))), '\n' ∉ r := by
    intro r hr hm
    obtain ⟨item, hit, rfl⟩ := List.mem_map.mp hr
    obtain ⟨hgood', hne'⟩ := hitemcells item hit
    obtain ⟨-, -, -, hnl', -, -, -⟩ := cells_line_facts _ hne' hgood'
    simp only [List.mem_cons] at hm
    rcases hm with h | h | h
    · exact absurd h (by decide)
    · exact absurd h (by decide)
    · rw [hmm2 item] at h
      exact hnl' h
  have hcons : ("table[".toList ++ natToChars (x :: rest).length ++ ']' :: '{' ::
      (List.intercalate [','] (objKeys x) ++ "\x7d:".toList)) ++
      '\n' :: List.intercalate ['\n'] ((x :: rest).map fun item =>
        ' ' :: ' ' :: List.intercalate [','] ((objKeys x).map fun k2 =>
          escapeVal (objGetD item k2))) =
      List.intercalate ['\n']
        (("table[".toList ++ natToChars (x :: rest).length ++ ']' :: '{' ::
          (List.intercalate [','] (objKeys x) ++ "\x7d:".toList)) ::
        (x :: rest).map fun item =>
          ' ' :: ' ' :: List.intercalate [','] ((objKeys x).map fun k2 =>
            escapeVal (objGetD item k2))) := by
    rw [intercalate_cons_ne _ _ _ (by simp)]
    simp
  rw [hcons]
  have hdoctrim : jsTrim (List.intercalate ['\n']
      (("table[".toList ++ natToChars (x :: rest).length ++ ']' :: '{' ::
        (List.intercalate [','] (objKeys x) ++ "\x7d:".toList)) ::
      (x :: rest).map fun item =>
        ' ' :: ' ' :: List.intercalate [','] ((objKeys x).map fun k2 =>
          escapeVal (objGetD item k2)))) =
      List.intercalate ['\n']
        (("table[".toList ++ natToChars (x :: rest).length ++ ']' :: '{' ::
          (List.intercalate [','] (objKeys x) ++ "\x7d:".toList)) ::
        (x :: rest).map fun item =>
          ' ' :: ' ' :: List.intercalate [','] ((objKeys x).map fun k2 =>
            escapeVal (objGetD item k2))) := by
    apply jsTrim_eq_self_of
    · intro c hc
      rw [head?_intercalate _ hne0] at hc
      exact hheadf c hc
    · intro c hc
      obtain ⟨lst, hm, he⟩ := getLast?_intercalate_mem ['\n'] _ _ (by
        intro l hl
        rcases List.mem_cons.mp hl with rfl | hl2
        · exact hne0
        · exact hrowne l hl2)
      rw [he] at hc
      rcases List.mem_cons.mp hm with rfl | hm2
      · exact hlastf c hc
      · exact hrowlast lst hm2 c hc
  rw [hdoctrim, decodeToon]
  rw [List.splitOn_intercalate _ '\n'
    (by
      intro l hl
      rcases List.mem_cons.mp hl with rfl | hl2
      · exact hnlhd
      · exact hrownl l hl2)
    (by simp)]
  simp only [List.foldl_cons]
  have hheadstep : (if jsTrim ("table[".toList ++ natToChars (x :: rest).length ++
      ']' :: '{' :: (List.intercalate [','] (objKeys x) ++ "\x7d:".toList)) = []
      then (⟨none, []⟩ : DecState)
      else processLine ⟨none, []⟩ ("table[".toList ++ natToChars (x :: rest).length ++
        ']' :: '{' :: (List.intercalate [','] (objKeys x) ++ "\x7d:".toList))) =
      ⟨some (.arr []), [⟨.rooted [], .kTable, 0, none, objKeys x⟩]⟩ := by
    rw [if_neg (by rw [hjthd]; exact hne0)]
    rw [processLine_table_root ⟨none, []⟩ _ (List.intercalate [','] (objKeys x))
      (by rw [hjthd]; exact hts) (by rw [hjthd]; exact hpref)]
    rw [hind0]
    rw [List.splitOn_intercalate (objKeys x) ','
      (fun k hk => (goodTableKey_facts (hkeys k hk)).2.1) hkne]
    rfl
  rw [hheadstep]
  rw [decode_table_rows (objKeys x) hkne hknd (x :: rest) [] hitems]
  rfl

/-- C1 counterexample: the claim covers every value built from null, booleans,
numbers, strings, objects and uniform tabular arrays — in particular the root
boolean `true`.  But `convertToToon true` is the text `true`, whose single line
matches no decoder classification (the key-value regex needs a `:`), so the
decoder's root stays JS `null`: the round trip returns `null`, not `true`. -/
theorem c1_counterexample :
    decodeToon (convertToToon (Value.bool true)) = Value.null ∧
      Value.null ≠ Value.bool true := by
  constructor
  · have hb : escapeVal (Value.bool true) = "true".toList := by
      rw [escapeVal_of_not_quote (Value.bool true) (by rw [jsStringOf]; decide), jsStringOf]
    have h1 : convertToToon (Value.bool true) = "true".toList := by
      rw [convertToToon]
      rw [show encode (Value.bool true) 0 none = ' ' :: escapeVal (Value.bool true) from by
        rw [encode]
        · rfl
        · exact fun h => Value.noConfusion h
        · exact fun h => Value.noConfusion h
        · exact fun x rest h => Value.noConfusion h
        · exact fun es h => Value.noConfusion h]
      rw [hb]
      rfl
    rw [h1]
    rfl
  · exact fun h => Value.noConfusion h

/-- C1 (amended): the round trip `decodeToon (convertToToon v) = v` holds — with
exact key order, stronger than the claimed up-to-key-order equality — for every
root that is either (a) a non-empty flat object with distinct `\w+` keys whose
values are round-trip-safe scalars (null, booleans, integral numbers in the
exact double range, and non-empty, trim-invariant, newline-free strings that
are not keywords, not numeric and not quote-wrapped), or (b) a non-empty
uniform array of such objects sharing one key list of non-empty, comma-free,
newline-free keys.  The original claim over all acyclic values is false
(`c1_counterexample`: root scalars are lost). -/
theorem c1_roundtrip (v : Value) (h : GoodRoot v) :
    decodeToon (convertToToon v) = v := by
  rcases h with hf | ht
  · cases v with
    | obj es => exact roundtrip_flat_obj es hf.1 hf.2.1 hf.2.2
    | null => exact hf.elim
    | bool b => exact hf.elim
    | num q => exact hf.elim
    | str s => exact hf.elim
    | arr xs => exact hf.elim
  · cases v with
    | arr xs =>
      cases xs with
      | nil => exact ht.elim
      | cons x rest => exact roundtrip_table x rest ht
    | null => exact ht.elim
    | bool b => exact ht.elim
    | num q => exact ht.elim
    | str s => exact ht.elim
    | obj es => exact ht.elim

/-- Witness for `c1_roundtrip`: the flat object `{a: 1}` satisfies `GoodRoot`
and survives the round trip. -/
theorem c1_roundtrip_witness :
    GoodRoot (Value.obj [("a".toList, Value.num 1)]) ∧
      decodeToon (convertToToon (Value.obj [("a".toList, Value.num 1)])) =
        Value.obj [("a".toList, Value.num 1)] :=
  ⟨by decide, c1_roundtrip _ (by decide)⟩
